import Mathlib

/-!
Verification development for `lm/builder/adjust_counts.cc` (kenlm builder).

The file shallowly embeds the code of `adjust_counts.cc`:

* `findDifference`   embeds the free function `FindDifference`;
* `OrderStat.statAdd`, `statsAdd`, `addFullStat`, `completeCounts`,
  `completeDiscounts` embed `StatCollector` (`Add`, `AddFull`, `Complete`);
* `findGoodP`, `collapseStep`, `collapseIter`, `collapseBlock`,
  `collapseBlocks` embed `CollapseStream`;
* `boswalk`, `runStep`, `adjustRun` embed `AdjustCounts::Run`.

Machine integers (`WordIndex`, `uint64_t` counts) are modelled as `Nat`;
every arithmetic operation performed on them by the code is an increment,
a comparison against a small constant, or a pointer-stride computation, so
wraparound cannot occur except in one place: `StatCollector::Add` computes
the histogram index `count - 1` in unsigned arithmetic, which underflows
to `2^64 - 1` when `count = 0` and then indexes outside the 4-element
histogram.  That out-of-bounds access (undefined behaviour in C++) is
modelled explicitly as the `none` result of `OrderStat.statAdd`.

The `float` discount computation of `StatCollector::Complete` is modelled
over `ℚ`, mirroring the expression tree of the source exactly; rounding is
abstracted away (exact arithmetic), and division by zero is the total
division of `ℚ`.
-/

/-- Vocabulary word identifier (`WordIndex` is a 32-bit unsigned integer;
only equality tests are performed on it, so `Nat` is a faithful model). -/
abbrev Word := Nat

/-- The reserved sentence-start marker `<s>`.  Its numeric value is assigned
by the vocabulary stage (not part of `adjust_counts.cc`); kenlm reserves id 1.
No theorem below depends on the particular value. -/
def kBOS : Word := 1

/-- One n-gram record: the word sequence (`begin() .. end()`) followed by the
mutable 64-bit count.  Records of one stream all share the same order. -/
structure NGramRec where
  words : List Word
  count : Nat
deriving DecidableEq, Repr

/-- Default record used for total list indexing (`List.getD`); never reached
at in-bounds indices, which the invariants below establish. -/
def dRec : NGramRec := ⟨[], 0⟩

/-! ## `FindDifference` (adjust_counts.cc lines 10–16)

The C++ walks `cur_word` from `full.end() - 1` and `pre_word` from
`lower_last.end() - 1` backwards while `pre_word >= lower_last.begin()` and
the two words agree, and returns `cur_word`.  `matchRev` counts the number
of loop iterations (matching trailing words) on the reversed word lists;
`findDifference` returns the index (from the front of `full`) of the
returned pointer. -/

/-- Number of matching leading words of two reversed word lists, stopping as
soon as the second (lower-order) list is exhausted — the loop guard
`pre_word >= lower_last.begin()`.  The `([], _ :: _)` case would be an
out-of-bounds read of `full` in C++ (it cannot occur in the program because
lower-order records are strictly shorter); the model returns the number of
comparisons made up to that point. -/
def matchRev : List Word → List Word → Nat
  | _, [] => 0
  | [], _ :: _ => 0
  | c :: cs, p :: ps => if p = c then matchRev cs ps + 1 else 0

/-- `FindDifference(full, lower_last)`, returning the index in `full` of the
pointer returned by the C++ function (`full.end() - 1 - matches`). -/
def findDifference (full lower : List Word) : Nat :=
  full.length - 1 - matchRev full.reverse lower.reverse

theorem matchRev_le_right (a b : List Word) : matchRev a b ≤ b.length := by
  induction a generalizing b with
  | nil => cases b <;> simp [matchRev]
  | cons c cs ih =>
    cases b with
    | nil => simp [matchRev]
    | cons p ps =>
      by_cases h : p = c
      · simpa [matchRev, h] using ih ps
      · simp [matchRev, h]

theorem matchRev_le_left (a b : List Word) : matchRev a b ≤ a.length := by
  induction a generalizing b with
  | nil => cases b <;> simp [matchRev]
  | cons c cs ih =>
    cases b with
    | nil => simp [matchRev]
    | cons p ps =>
      by_cases h : p = c
      · simpa [matchRev, h] using ih ps
      · simp [matchRev, h]

/-- The matched region really matches: below `matchRev a b` the two lists
agree position by position. -/
theorem matchRev_eq_below (a b : List Word) :
    ∀ j, j < matchRev a b → a.getD j 0 = b.getD j 0 := by
  induction a generalizing b with
  | nil => intro j hj; cases b <;> simp [matchRev] at hj
  | cons c cs ih =>
    intro j hj
    cases b with
    | nil => simp [matchRev] at hj
    | cons p ps =>
      by_cases h : p = c
      · simp only [matchRev, h, if_pos] at hj
        cases j with
        | zero => simp [h]
        | succ j' =>
          have := ih ps j' (by omega)
          simpa [List.getD] using this
      · simp [matchRev, h] at hj

/-- At position `matchRev a b` (when it is inside `b`, and `b` is not longer
than `a`) the lists disagree. -/
theorem matchRev_ne_at (a b : List Word) (h : matchRev a b < b.length)
    (hlen : b.length ≤ a.length) :
    a.getD (matchRev a b) 0 ≠ b.getD (matchRev a b) 0 := by
  induction a generalizing b with
  | nil =>
    cases b with
    | nil => simp at h
    | cons p ps => simp at hlen
  | cons c cs ih =>
    cases b with
    | nil => simp at h
    | cons p ps =>
      by_cases he : p = c
      · simp only [matchRev, he, if_pos] at h ⊢
        have := ih ps (by simpa using h) (by simpa using hlen)
        simpa [List.getD] using this
      · simpa [matchRev, he] using fun hc => he hc.symm

/-! ## `StatCollector` (adjust_counts.cc lines 18–59)

`orders_` is a vector of `OrderStat { uint64_t n[4]; uint64_t count; }`,
zero-initialised; `full_` aliases `orders_.back()`. -/

/-- One per-order accumulator: the 4-bucket count-of-counts histogram
(`n.getD 0 0` is `n_1` of Chen–Goodman equation 26) and the distinct-record
total. -/
structure OrderStat where
  n : List Nat
  count : Nat
deriving DecidableEq, Repr

/-- The zero-initialised accumulator (`memset` in the constructor). -/
def zeroStat : OrderStat := ⟨[0, 0, 0, 0], 0⟩

/-- `StatCollector`'s zero-initialised state for `order` slots. -/
def zeroStats (order : Nat) : List OrderStat := List.replicate order zeroStat

/-- `StatCollector::Add` / `AddFull` body on one slot:
`++stat.count; if (count < 5) ++stat.n[count - 1];`.
The index `count - 1` is computed in `uint64_t` arithmetic: at `count = 0`
it underflows to `2^64 - 1`, an access outside the 4-element histogram —
undefined behaviour, modelled as `none`. -/
def OrderStat.statAdd (s : OrderStat) (c : Nat) : Option OrderStat :=
  let s1 : OrderStat := ⟨s.n, s.count + 1⟩
  if c < 5 then
    if c = 0 then none
    else some ⟨s1.n.set (c - 1) (s1.n.getD (c - 1) 0 + 1), s1.count⟩
  else some s1

/-- `Add(order_minus_1, count)` on the whole collector state. -/
def statsAdd (stats : List OrderStat) (slot c : Nat) : Option (List OrderStat) :=
  match (stats.getD slot zeroStat).statAdd c with
  | some s => some (stats.set slot s)
  | none => none

/-- `AddFull(count)`: `full_` aliases `orders_.back()`, i.e. the last slot. -/
def addFullStat (stats : List OrderStat) (c : Nat) : Option (List OrderStat) :=
  statsAdd stats (stats.length - 1) c

/-- The discount set computed by `Complete` for zero-based slot `i`
(lines 41–46), mirrored over `ℚ`:
`amount[0] = 0.0`, `y = n[0] / (n[0] + 2.0 * n[1])`, and for `j = 1..3`
`amount[j] = i - (i+1) * y * n[j] / n[j-1]`. -/
def discountSet (i : Nat) (s : OrderStat) : List ℚ :=
  let y : ℚ := (s.n.getD 0 0 : ℚ) / ((s.n.getD 0 0 : ℚ) + 2 * (s.n.getD 1 0 : ℚ))
  0 :: ([1, 2, 3].map fun j =>
    (i : ℚ) - ((i : ℚ) + 1) * y * (s.n.getD j 0 : ℚ) / (s.n.getD (j - 1) 0 : ℚ))

/-- `Complete`'s `counts` output: `counts[i] = orders_[i].count`. -/
def completeCounts (stats : List OrderStat) : List Nat :=
  stats.map fun s => s.count

/-- `Complete`'s `discounts` output, one `discountSet` per slot. -/
def completeDiscounts (stats : List OrderStat) : List (List ℚ) :=
  (List.range stats.length).map fun i => discountSet i (stats.getD i zeroStat)

/-! ## Claim C6: `FindDifference` -/

/-- C6 counterexample.  Claim C6 states that when the two records match
entirely over the shorter record's length, `FindDifference` returns `full`'s
first word (index 0).  For `full = (0,1,2)` and `lower = (2)` the records do
match entirely over `lower`'s length (one trailing word), yet the code
returns `full.end() - 1 - 1`, i.e. index 1, not index 0. -/
theorem c6_counterexample :
    matchRev (List.reverse [0, 1, 2]) (List.reverse [2]) = List.length [2] ∧
    findDifference [0, 1, 2] [2] ≠ 0 := by decide

/-- C6 (amended): `FindDifference` returns the position in `full`, scanning
from the end, of the first word at which the records differ; when they match
entirely over the shorter record's length it returns the position immediately
preceding the matched suffix (which is `full`'s first word only when the
lower record is exactly one word shorter).  In both cases the number of
matching trailing words equals the offset from `full`'s last word to the
returned position; the function is pure (the model is a function of the two
word lists only). -/
theorem c6_find_difference (full lower : List Word)
    (h1 : 0 < lower.length) (h2 : lower.length < full.length) :
    full.length - 1 - findDifference full lower =
      matchRev full.reverse lower.reverse ∧
    matchRev full.reverse lower.reverse ≤ lower.length ∧
    (∀ j, j < matchRev full.reverse lower.reverse →
      full.reverse.getD j 0 = lower.reverse.getD j 0) ∧
    (matchRev full.reverse lower.reverse < lower.length →
      full.reverse.getD (matchRev full.reverse lower.reverse) 0 ≠
        lower.reverse.getD (matchRev full.reverse lower.reverse) 0) := by
  have hle : matchRev full.reverse lower.reverse ≤ lower.length := by
    simpa using matchRev_le_right full.reverse lower.reverse
  refine ⟨?_, hle, matchRev_eq_below _ _, fun h => ?_⟩
  · unfold findDifference; omega
  · exact matchRev_ne_at _ _ (by simpa using h) (by simp; omega)

theorem c6_find_difference_witness :
    0 < List.length [9, 3] ∧ List.length [9, 3] < List.length [1, 2, 3] ∧
    (List.length [1, 2, 3] - 1 - findDifference [1, 2, 3] [9, 3] =
      matchRev (List.reverse [1, 2, 3]) (List.reverse [9, 3]) ∧
    matchRev (List.reverse [1, 2, 3]) (List.reverse [9, 3]) ≤ List.length [9, 3] ∧
    (∀ j, j < matchRev (List.reverse [1, 2, 3]) (List.reverse [9, 3]) →
      (List.reverse [1, 2, 3]).getD j 0 = (List.reverse [9, 3]).getD j 0) ∧
    (matchRev (List.reverse [1, 2, 3]) (List.reverse [9, 3]) < List.length [9, 3] →
      (List.reverse [1, 2, 3]).getD
          (matchRev (List.reverse [1, 2, 3]) (List.reverse [9, 3])) 0 ≠
        (List.reverse [9, 3]).getD
          (matchRev (List.reverse [1, 2, 3]) (List.reverse [9, 3])) 0)) :=
  ⟨by decide, by decide, c6_find_difference [1, 2, 3] [9, 3] (by decide) (by decide)⟩

/-! ## Claim C7: `StatCollector::Add` -/

/-- C7 failing input, count = 0: `Add` evaluates `++stat.n[count - 1]` with
the unsigned index `0 - 1 = 2^64 - 1`, outside the 4-element histogram —
the claim says the access stays within the histogram's bounds.  `none` is
the model's rendering of that out-of-bounds access. -/
theorem c7_failing_input : zeroStat.statAdd 0 = none := by decide

/-- C7 (behaviour on all other counts, matching the claim): for `count ≥ 1`
the distinct-record total is incremented by one, the histogram bucket
`count - 1` is incremented exactly when `1 ≤ count ≤ 4`, and no bucket is
touched when `count ≥ 5`. -/
theorem c7_stat_add (s : OrderStat) (c : Nat) (hc : 1 ≤ c) :
    ∃ s', s.statAdd c = some s' ∧ s'.count = s.count + 1 ∧
      (c ≤ 4 → s'.n = s.n.set (c - 1) (s.n.getD (c - 1) 0 + 1)) ∧
      (5 ≤ c → s'.n = s.n) := by
  have hc0 : c ≠ 0 := by omega
  unfold OrderStat.statAdd
  by_cases h5 : c < 5
  · simp only [h5, if_true, hc0, if_false]
    exact ⟨_, rfl, rfl, fun _ => rfl, fun h => by omega⟩
  · simp only [h5, if_false]
    exact ⟨_, rfl, rfl, fun h => by omega, fun _ => rfl⟩

theorem c7_stat_add_witness :
    1 ≤ 2 ∧ ∃ s', zeroStat.statAdd 2 = some s' ∧ s'.count = zeroStat.count + 1 ∧
      (2 ≤ 4 → s'.n = zeroStat.n.set (2 - 1) (zeroStat.n.getD (2 - 1) 0 + 1)) ∧
      (5 ≤ 2 → s'.n = zeroStat.n) :=
  ⟨by decide, c7_stat_add zeroStat 2 (by decide)⟩

/-! ## Claim C5: `StatCollector::Complete` -/

/-- C5: for every run state and zero-based slot `i`, `Complete` outputs
`counts[i]` equal to slot `i`'s accumulated distinct-record total, sets
`amount[0] = 0`, and for `j ∈ {1,2,3}` sets
`amount[j] = i - (i+1) * Y * n[j] / n[j-1]` with
`Y = n[0] / (n[0] + 2 * n[1])` taken from slot `i`'s histogram
(exact-arithmetic model of the `float` computation; division is the total
division of `ℚ`, so a zero denominator propagates the value the division
produces, here `0`). -/
theorem c5_complete (stats : List OrderStat) (i : Nat) (hi : i < stats.length) :
    (completeCounts stats)[i]? = some (stats.getD i zeroStat).count ∧
    ∃ ds, (completeDiscounts stats)[i]? = some ds ∧
      ds.getD 0 1 = 0 ∧
      (∀ j, 1 ≤ j → j ≤ 3 →
        ds[j]? = some ((i : ℚ) -
          ((i : ℚ) + 1) *
            (((stats.getD i zeroStat).n.getD 0 0 : ℚ) /
              (((stats.getD i zeroStat).n.getD 0 0 : ℚ) +
                2 * ((stats.getD i zeroStat).n.getD 1 0 : ℚ))) *
            ((stats.getD i zeroStat).n.getD j 0 : ℚ) /
            ((stats.getD i zeroStat).n.getD (j - 1) 0 : ℚ))) := by
  constructor
  · simp [completeCounts, List.getElem?_map, List.getElem?_eq_getElem hi,
      List.getD_eq_getElem?_getD]
  · refine ⟨discountSet i (stats.getD i zeroStat), ?_, ?_, ?_⟩
    · rw [completeDiscounts, List.getElem?_map, List.getElem?_range hi]
      rfl
    · rfl
    · intro j h1 h3
      interval_cases j <;> simp [discountSet]

theorem c5_complete_witness :
    1 < (zeroStats 2).length ∧
    ((completeCounts (zeroStats 2))[1]? = some ((zeroStats 2).getD 1 zeroStat).count ∧
    ∃ ds, (completeDiscounts (zeroStats 2))[1]? = some ds ∧
      ds.getD 0 1 = 0 ∧
      (∀ j, 1 ≤ j → j ≤ 3 →
        ds[j]? = some ((1 : ℚ) -
          ((1 : ℚ) + 1) *
            ((((zeroStats 2).getD 1 zeroStat).n.getD 0 0 : ℚ) /
              ((((zeroStats 2).getD 1 zeroStat).n.getD 0 0 : ℚ) +
                2 * (((zeroStats 2).getD 1 zeroStat).n.getD 1 0 : ℚ))) *
            (((zeroStats 2).getD 1 zeroStat).n.getD j 0 : ℚ) /
            (((zeroStats 2).getD 1 zeroStat).n.getD (j - 1) 0 : ℚ)))) :=
  ⟨by decide, c5_complete (zeroStats 2) 1 (by decide)⟩

/-! ## `CollapseStream` (adjust_counts.cc lines 61–118)

A block is modelled as a list of same-order records; pointer arithmetic in
record strides becomes list indexing.  `current_` is the index `cur`;
`copy_from_` is kept in the shifted encoding `cfP = (copy_from_ index) + 1`,
so that `copy_from_ = base - stride` (one stride below the block, reachable
when every record is scanned past) is `cfP = 0`. -/

/-- Does the record have the sentence-start marker in word position 1
(`current_.begin()[1] == kBOS`)?  Records fed to `CollapseStream` always
have order ≥ 2, so the C++ read is in bounds; the model's `[1]?` is `none`
on shorter words lists, which compares unequal to `some kBOS`. -/
def hasMidBos (r : NGramRec) : Bool := r.words[1]? == some kBOS

/-- `UpdateCopyFrom`'s scan (lines 106–110), already decremented: starting
at candidate index `c` and walking down, return `j + 1` for the first
`j ≥ cur` whose record does not have an interior `<s>`, or `cur` (the
encoding of index `cur - 1`) when the scan moves below `cur`. -/
def findGoodP (recs : List NGramRec) (cur : Nat) : Nat → Nat
  | 0 =>
    if 0 < cur then cur
    else if hasMidBos (recs.getD 0 dRec) then cur else 1
  | c + 1 =>
    if c + 1 < cur then cur
    else if hasMidBos (recs.getD (c + 1) dRec) then findGoodP recs cur c
    else c + 2

/-- Cursor state inside one block. -/
structure CState where
  recs : List NGramRec
  cur : Nat
  cfP : Nat
deriving DecidableEq, Repr

/-- One `operator++` (lines 78–92) within a block: if the record being left
has an interior `<s>` and lies strictly below `copy_from_`, overwrite it
with `copy_from_`'s record and rescan `copy_from_` downwards; then advance.
(The end-of-block `SetValidSize` of line 87 is applied by `collapseBlock`
from the final state's `cfP`.) -/
def collapseStep (s : CState) : CState :=
  if hasMidBos (s.recs.getD s.cur dRec) = true ∧ s.cur + 2 ≤ s.cfP then
    let recs2 := s.recs.set s.cur (s.recs.getD (s.cfP - 1) dRec)
    { recs := recs2, cur := s.cur + 1, cfP := findGoodP recs2 s.cur (s.cfP - 2) }
  else
    { recs := s.recs, cur := s.cur + 1, cfP := s.cfP }

/-- `n` iterations of dereference-then-advance: the yielded records (what
`operator*` returns before each `operator++`) and the final state. -/
def collapseIter : Nat → CState → List NGramRec × CState
  | 0, s => ([], s)
  | n + 1, s =>
    let out := collapseIter n (collapseStep s)
    (s.recs.getD s.cur dRec :: out.1, out.2)

/-- Iterating the cursor over one block: `StartBlock` places `current_` at
the block base and scans `copy_from_` down from the valid end; the cursor
then yields once per record; on reaching the valid end the block's valid
size is shrunk to `copy_from_ + stride - base`, i.e. `cfP` records.
Returns (yielded records, surviving valid region). -/
def collapseBlock (b : List NGramRec) : List NGramRec × List NGramRec :=
  let s0 : CState := ⟨b, 0, findGoodP b 0 (b.length - 1)⟩
  let out := collapseIter b.length s0
  (out.1, out.2.recs.take out.2.cfP)

/-- The whole stream over a block sequence: blocks are handled one at a
time and independently (`StartBlock` re-bases `current_` and `copy_from_`
per block and skips empty blocks, which yield nothing and stay empty). -/
def collapseBlocks (bs : List (List NGramRec)) : List NGramRec × List (List NGramRec) :=
  ((bs.map fun b => (collapseBlock b).1).flatten, bs.map fun b => (collapseBlock b).2)

/-! ### List index helpers -/

theorem getD_take_lt {α : Type} (l : List α) (n i : Nat) (d : α) (h : i < n) :
    (l.take n).getD i d = l.getD i d := by
  simp [List.getD_eq_getElem?_getD, List.getElem?_take_of_lt h]

theorem getD_drop_add {α : Type} (l : List α) (n i : Nat) (d : α) :
    (l.drop n).getD i d = l.getD (n + i) d := by
  simp [List.getD_eq_getElem?_getD, List.getElem?_drop]

theorem getD_set_self {α : Type} (l : List α) (i : Nat) (a d : α) (h : i < l.length) :
    (l.set i a).getD i d = a := by
  simp [List.getD_eq_getElem?_getD, List.getElem?_set_self h]

theorem getD_set_ne {α : Type} (l : List α) (i j : Nat) (a d : α) (h : i ≠ j) :
    (l.set i a).getD j d = l.getD j d := by
  simp [List.getD_eq_getElem?_getD, List.getElem?_set_ne h]

theorem getD_append_lt {α : Type} (l₁ l₂ : List α) (i : Nat) (d : α) (h : i < l₁.length) :
    (l₁ ++ l₂).getD i d = l₁.getD i d := by
  simp [List.getD_eq_getElem?_getD, List.getElem?_append_left h]

theorem getD_append_ge {α : Type} (l₁ l₂ : List α) (i : Nat) (d : α) (h : l₁.length ≤ i) :
    (l₁ ++ l₂).getD i d = l₂.getD (i - l₁.length) d := by
  simp [List.getD_eq_getElem?_getD, List.getElem?_append_right h]

theorem take_set_succ {α : Type} (l : List α) (i : Nat) (a : α) (h : i < l.length) :
    (l.set i a).take (i + 1) = l.take i ++ [a] := by
  rw [List.take_succ, List.set_take,
    List.set_eq_of_length_le (by rw [List.length_take]; omega),
    List.getElem?_set_self (by simpa using h)]
  rfl

/-- Every member of a contiguous segment `l[a .. a+k)` is some `l.getD j d`
with `a ≤ j < a + k` in bounds. -/
theorem mem_seg_getD {α : Type} (l : List α) (a k : Nat) (d : α) (r : α)
    (h : r ∈ (l.drop a).take k) :
    ∃ j, a ≤ j ∧ j < a + k ∧ j < l.length ∧ l.getD j d = r := by
  obtain ⟨i, hi, hget⟩ := List.getElem_of_mem h
  have hi' := hi
  rw [List.length_take, List.length_drop] at hi'
  have hik : i < k := lt_of_lt_of_le hi' (Nat.min_le_left _ _)
  have hil : a + i < l.length := by
    have := lt_of_lt_of_le hi' (Nat.min_le_right _ _)
    omega
  refine ⟨a + i, by omega, by omega, hil, ?_⟩
  have h2 : ((l.drop a).take k)[i] = l[a + i] := by
    simp
  rw [List.getD_eq_getElem?_getD, List.getElem?_eq_getElem hil, Option.getD_some,
    ← hget, h2]

/-- Segment decomposition at the left end. -/
theorem seg_cons {α : Type} (l : List α) (a b : Nat) (d : α)
    (ha : a < l.length) (hab : a < b) :
    (l.drop a).take (b - a) = l.getD a d :: (l.drop (a + 1)).take (b - (a + 1)) := by
  have hb : b - a = (b - (a + 1)) + 1 := by omega
  rw [hb, List.drop_eq_getElem_cons ha, List.take_succ_cons]
  simp [List.getD_eq_getElem?_getD, List.getElem?_eq_getElem ha]

/-- Segment split in the middle. -/
theorem seg_split {α : Type} (l : List α) (a m b : Nat) (h1 : a ≤ m) (h2 : m ≤ b) :
    (l.drop a).take (b - a) = (l.drop a).take (m - a) ++ (l.drop m).take (b - m) := by
  have hb : b - a = (m - a) + (b - m) := by omega
  rw [hb, List.take_add, List.drop_drop, Nat.add_sub_cancel' h1]

/-- Postconditions of the `UpdateCopyFrom` scan: the result is at least
`cur` (the encoding of "one below `cur`"); it never exceeds the scan start
plus one; when it is `j + 1 ≥ cur + 1` the record at index `j` has no
interior `<s>`; and every index of the scanned range at or above the result
has an interior `<s>`. -/
theorem findGoodP_spec (recs : List NGramRec) (cur : Nat) (c : Nat) :
    cur ≤ findGoodP recs cur c ∧
    findGoodP recs cur c ≤ max cur (c + 1) ∧
    (cur + 1 ≤ findGoodP recs cur c →
      hasMidBos (recs.getD (findGoodP recs cur c - 1) dRec) = false) ∧
    (∀ j, findGoodP recs cur c ≤ j → j ≤ c → cur ≤ j →
      hasMidBos (recs.getD j dRec) = true) := by
  induction c with
  | zero =>
    by_cases h0 : 0 < cur
    · simp only [findGoodP, if_pos h0]
      exact ⟨le_refl _, le_max_left _ _, fun hh => by omega, fun j h1 h2 h3 => by omega⟩
    · have hc : cur = 0 := by omega
      subst hc
      by_cases hb : hasMidBos (recs.getD 0 dRec)
      · have hb' : hasMidBos (recs[0]?.getD dRec) = true := by simpa using hb
        have he : findGoodP recs 0 0 = 0 := by simp [findGoodP, hb']
        rw [he]
        refine ⟨le_refl _, by omega, fun hh => by omega, fun j h1 h2 h3 => ?_⟩
        have hj0 : j = 0 := by omega
        rw [hj0]; exact hb
      · have hb' : hasMidBos (recs[0]?.getD dRec) = false := by simpa using hb
        have he : findGoodP recs 0 0 = 1 := by simp [findGoodP, hb']
        rw [he]
        refine ⟨by omega, by omega, fun hh => ?_, fun j h1 h2 h3 => by omega⟩
        simpa using hb
  | succ c ih =>
    by_cases h0 : c + 1 < cur
    · simp only [findGoodP, if_pos h0]
      exact ⟨le_refl _, le_max_left _ _, fun hh => by omega, fun j h1 h2 h3 => by omega⟩
    · by_cases hb : hasMidBos (recs.getD (c + 1) dRec)
      · simp only [findGoodP, if_neg h0, if_pos hb]
        obtain ⟨ih1, ih2, ih3, ih4⟩ := ih
        refine ⟨ih1, by omega, ih3, fun j h1 h2 h3 => ?_⟩
        by_cases hj : j ≤ c
        · exact ih4 j h1 hj h3
        · have : j = c + 1 := by omega
          rw [this]; exact hb
      · simp only [findGoodP, if_neg h0, if_neg hb]
        refine ⟨by omega, by omega, fun hh => ?_, fun j h1 h2 h3 => by omega⟩
        have h21 : c + 2 - 1 = c + 1 := by omega
        rw [h21]
        simpa using hb

/-- The records that survive compaction: those without interior `<s>`. -/
def filterGood (l : List NGramRec) : List NGramRec := l.filter fun r => !hasMidBos r

theorem filterGood_eq_nil (l : List NGramRec) (h : ∀ r ∈ l, hasMidBos r = true) :
    filterGood l = [] := by
  simp only [filterGood, List.filter_eq_nil_iff]
  intro a ha
  simp [h a ha]

theorem filterGood_cons_good (x : NGramRec) (l : List NGramRec)
    (h : hasMidBos x = false) : filterGood (x :: l) = x :: filterGood l := by
  simp [filterGood, List.filter_cons, h]

theorem filterGood_cons_bad (x : NGramRec) (l : List NGramRec)
    (h : hasMidBos x = true) : filterGood (x :: l) = filterGood l := by
  simp [filterGood, List.filter_cons, h]

theorem filterGood_append (l₁ l₂ : List NGramRec) :
    filterGood (l₁ ++ l₂) = filterGood l₁ ++ filterGood l₂ := by
  simp [filterGood]

theorem perm_cons_append {α : Type} (x : α) (l : List α) :
    List.Perm (x :: l) (l ++ [x]) := by
  simpa using @List.perm_append_comm α [x] l

theorem take_succ_of_lt {α : Type} (l : List α) (i : Nat) (d : α) (h : i < l.length) :
    l.take (i + 1) = l.take i ++ [l.getD i d] := by
  rw [List.take_succ, List.getElem?_eq_getElem h]
  simp [List.getD_eq_getElem?_getD, List.getElem?_eq_getElem h]

/-- Cursor invariant inside one block whose original contents are `orig`.
Slots at or above `cur` still hold their original records.  While
`copy_from_` is at or above `current_` (first disjunct) the block prefix
below `cur` holds only marker-free records and, together with the
marker-free records of the untouched segment `[cur, cfP)`, forms a
permutation of all marker-free records of the block; once `copy_from_` has
dropped below `current_` (second disjunct) the prefix below `cfP` is, up to
order, exactly the marker-free records of the block. -/
def CInv (orig : List NGramRec) (s : CState) : Prop :=
  s.recs.length = orig.length ∧
  s.cur ≤ orig.length ∧
  (∀ j, s.cur ≤ j → s.recs.getD j dRec = orig.getD j dRec) ∧
  ((s.cur + 1 ≤ s.cfP ∧ s.cfP ≤ orig.length ∧
      hasMidBos (orig.getD (s.cfP - 1) dRec) = false ∧
      (∀ r ∈ s.recs.take s.cur, hasMidBos r = false) ∧
      List.Perm
        (s.recs.take s.cur ++ filterGood ((orig.drop s.cur).take (s.cfP - s.cur)))
        (filterGood orig))
   ∨ (s.cfP ≤ s.cur ∧
      (∀ r ∈ s.recs.take s.cfP, hasMidBos r = false) ∧
      List.Perm (s.recs.take s.cfP) (filterGood orig)))

/-- Introduction form of `CInv` at a literal state, stated over the plain
fields so that arithmetic automation sees them. -/
theorem CInv_mk (orig recs : List NGramRec) (cur cfP : Nat)
    (h1 : recs.length = orig.length) (h2 : cur ≤ orig.length)
    (h3 : ∀ j, cur ≤ j → recs.getD j dRec = orig.getD j dRec)
    (h4 : (cur + 1 ≤ cfP ∧ cfP ≤ orig.length ∧
        hasMidBos (orig.getD (cfP - 1) dRec) = false ∧
        (∀ r ∈ recs.take cur, hasMidBos r = false) ∧
        List.Perm (recs.take cur ++ filterGood ((orig.drop cur).take (cfP - cur)))
          (filterGood orig))
      ∨ (cfP ≤ cur ∧ (∀ r ∈ recs.take cfP, hasMidBos r = false) ∧
        List.Perm (recs.take cfP) (filterGood orig))) :
    CInv orig ⟨recs, cur, cfP⟩ :=
  ⟨h1, h2, h3, h4⟩

/-- One step of the cursor preserves the invariant. -/
theorem collapseStep_inv (orig : List NGramRec) (s : CState)
    (h : CInv orig s) (hcur : s.cur < orig.length) :
    CInv orig (collapseStep s) := by
  obtain ⟨hlen, hcle, hA, hcase⟩ := h
  have hAcur : s.recs.getD s.cur dRec = orig.getD s.cur dRec := hA s.cur (le_refl _)
  rcases hcase with ⟨hac, hcf_le, hcfgood, hpre, hperm⟩ | ⟨hic, hgood, hperm⟩
  · -- active: cur + 1 ≤ cfP
    by_cases hbad : hasMidBos (s.recs.getD s.cur dRec) = true
    · -- record being left is bad: the copy branch runs
      have hbadcur : hasMidBos (orig.getD s.cur dRec) = true := by rw [← hAcur]; exact hbad
      have hne : s.cur ≠ s.cfP - 1 := by
        intro hee
        rw [hee] at hbadcur
        rw [hbadcur] at hcfgood
        exact absurd hcfgood (by simp)
      have hc2 : s.cur + 2 ≤ s.cfP := by omega
      have hcond : hasMidBos (s.recs.getD s.cur dRec) = true ∧ s.cur + 2 ≤ s.cfP :=
        ⟨hbad, hc2⟩
      unfold collapseStep
      rw [if_pos hcond]
      show CInv orig ⟨s.recs.set s.cur (s.recs.getD (s.cfP - 1) dRec), s.cur + 1,
        findGoodP (s.recs.set s.cur (s.recs.getD (s.cfP - 1) dRec)) s.cur (s.cfP - 2)⟩
      have hsrcval : s.recs.getD (s.cfP - 1) dRec = orig.getD (s.cfP - 1) dRec :=
        hA (s.cfP - 1) (by omega)
      have hsrcgood : hasMidBos (s.recs.getD (s.cfP - 1) dRec) = false := by
        rw [hsrcval]; exact hcfgood
      have hcurlen : s.cur < s.recs.length := by omega
      have hlen2 : (s.recs.set s.cur (s.recs.getD (s.cfP - 1) dRec)).length = orig.length := by
        simp [hlen]
      have hA2 : ∀ j, s.cur + 1 ≤ j →
          (s.recs.set s.cur (s.recs.getD (s.cfP - 1) dRec)).getD j dRec = orig.getD j dRec := by
        intro j hj
        rw [getD_set_ne _ _ _ _ _ (by omega)]
        exact hA j (by omega)
      have hr2cur : (s.recs.set s.cur (s.recs.getD (s.cfP - 1) dRec)).getD s.cur dRec =
          s.recs.getD (s.cfP - 1) dRec := getD_set_self _ _ _ _ hcurlen
      obtain ⟨sp1, sp2, sp3, sp4⟩ :=
        findGoodP_spec (s.recs.set s.cur (s.recs.getD (s.cfP - 1) dRec)) s.cur (s.cfP - 2)
      have hcf2ge : s.cur + 1 ≤ findGoodP (s.recs.set s.cur (s.recs.getD (s.cfP - 1) dRec))
          s.cur (s.cfP - 2) := by
        by_contra hlt
        have heq : findGoodP (s.recs.set s.cur (s.recs.getD (s.cfP - 1) dRec))
            s.cur (s.cfP - 2) = s.cur := by omega
        have := sp4 s.cur (by omega) (by omega) (le_refl _)
        rw [hr2cur, hsrcgood] at this
        exact absurd this (by simp)
      have hcf2le : findGoodP (s.recs.set s.cur (s.recs.getD (s.cfP - 1) dRec))
          s.cur (s.cfP - 2) ≤ s.cfP - 1 := by
        have h22 : s.cfP - 2 + 1 = s.cfP - 1 := by omega
        rw [h22] at sp2
        omega
      have hgood2 : hasMidBos ((s.recs.set s.cur (s.recs.getD (s.cfP - 1) dRec)).getD
          (findGoodP (s.recs.set s.cur (s.recs.getD (s.cfP - 1) dRec)) s.cur (s.cfP - 2) - 1)
          dRec) = false := sp3 hcf2ge
      have htake : (s.recs.set s.cur (s.recs.getD (s.cfP - 1) dRec)).take (s.cur + 1) =
          s.recs.take s.cur ++ [s.recs.getD (s.cfP - 1) dRec] :=
        take_set_succ s.recs s.cur _ hcurlen
      have hgoods2 : ∀ r ∈ (s.recs.set s.cur (s.recs.getD (s.cfP - 1) dRec)).take (s.cur + 1),
          hasMidBos r = false := by
        intro r hr
        rw [htake] at hr
        rcases List.mem_append.mp hr with hr1 | hr2
        · exact hpre r hr1
        · rw [List.mem_singleton.mp hr2]; exact hsrcgood
      -- permutation bookkeeping
      have hseg1 : (orig.drop s.cur).take (s.cfP - s.cur) =
          orig.getD s.cur dRec :: (orig.drop (s.cur + 1)).take (s.cfP - (s.cur + 1)) :=
        seg_cons orig s.cur s.cfP dRec hcur (by omega)
      have hseg2 : (orig.drop (s.cur + 1)).take (s.cfP - (s.cur + 1)) =
          (orig.drop (s.cur + 1)).take
            (findGoodP (s.recs.set s.cur (s.recs.getD (s.cfP - 1) dRec)) s.cur (s.cfP - 2)
              - (s.cur + 1)) ++
          (orig.drop (findGoodP (s.recs.set s.cur (s.recs.getD (s.cfP - 1) dRec)) s.cur
            (s.cfP - 2))).take
            (s.cfP - findGoodP (s.recs.set s.cur (s.recs.getD (s.cfP - 1) dRec)) s.cur
              (s.cfP - 2)) :=
        seg_split orig (s.cur + 1) _ s.cfP hcf2ge (by omega)
      have hseg3 : (orig.drop (findGoodP (s.recs.set s.cur (s.recs.getD (s.cfP - 1) dRec))
          s.cur (s.cfP - 2))).take
            (s.cfP - findGoodP (s.recs.set s.cur (s.recs.getD (s.cfP - 1) dRec)) s.cur
              (s.cfP - 2)) =
          (orig.drop (findGoodP (s.recs.set s.cur (s.recs.getD (s.cfP - 1) dRec)) s.cur
            (s.cfP - 2))).take
            (s.cfP - 1 - findGoodP (s.recs.set s.cur (s.recs.getD (s.cfP - 1) dRec)) s.cur
              (s.cfP - 2)) ++
          (orig.drop (s.cfP - 1)).take (s.cfP - (s.cfP - 1)) :=
        seg_split orig _ (s.cfP - 1) s.cfP hcf2le (by omega)
      have hseg4 : (orig.drop (s.cfP - 1)).take (s.cfP - (s.cfP - 1)) =
          [orig.getD (s.cfP - 1) dRec] := by
        have h1 : s.cfP - (s.cfP - 1) = 1 := by omega
        have h2 : s.cfP - 1 < orig.length := by omega
        have h3 : orig.drop (s.cfP - 1) = orig.getD (s.cfP - 1) dRec :: orig.drop (s.cfP - 1 + 1) := by
          rw [List.drop_eq_getElem_cons h2]
          simp [List.getD_eq_getElem?_getD, List.getElem?_eq_getElem h2]
        rw [h1, h3, List.take_succ_cons, List.take_zero]
      have hmidnil : filterGood ((orig.drop (findGoodP (s.recs.set s.cur
          (s.recs.getD (s.cfP - 1) dRec)) s.cur (s.cfP - 2))).take
            (s.cfP - 1 - findGoodP (s.recs.set s.cur (s.recs.getD (s.cfP - 1) dRec)) s.cur
              (s.cfP - 2))) = [] := by
        apply filterGood_eq_nil
        intro r hr
        obtain ⟨j, hj1, hj2, hj3, hj4⟩ := mem_seg_getD orig _ _ dRec r hr
        have hjb : hasMidBos ((s.recs.set s.cur (s.recs.getD (s.cfP - 1) dRec)).getD j dRec)
            = true := sp4 j hj1 (by omega) (by omega)
        rw [hA2 j (by omega)] at hjb
        rw [← hj4]
        exact hjb
      -- rewrite the old permutation into the split form
      rw [hseg1, filterGood_cons_bad _ _ hbadcur, hseg2, hseg3, filterGood_append,
        filterGood_append, hmidnil, hseg4, filterGood_cons_good _ _ hcfgood] at hperm
      -- hperm : (recs.take cur ++ (G ++ ([] ++ [origCf]))).Perm target
      by_cases hact2 : s.cur + 2 ≤ findGoodP (s.recs.set s.cur (s.recs.getD (s.cfP - 1) dRec))
          s.cur (s.cfP - 2)
      · -- still active
        refine CInv_mk orig _ _ _ hlen2 (by omega) hA2
          (Or.inl ⟨by omega, by omega, ?_, hgoods2, ?_⟩)
        · rw [← hA2 _ (by omega)]
          exact hgood2
        · rw [htake]
          rw [← hsrcval] at hperm
          refine List.Perm.trans ?_ hperm
          have hassoc : (s.recs.take s.cur ++ [s.recs.getD (s.cfP - 1) dRec]) ++
              filterGood ((orig.drop (s.cur + 1)).take
                (findGoodP (s.recs.set s.cur (s.recs.getD (s.cfP - 1) dRec)) s.cur (s.cfP - 2)
                  - (s.cur + 1))) =
              s.recs.take s.cur ++ ([s.recs.getD (s.cfP - 1) dRec] ++
                filterGood ((orig.drop (s.cur + 1)).take
                  (findGoodP (s.recs.set s.cur (s.recs.getD (s.cfP - 1) dRec)) s.cur
                    (s.cfP - 2) - (s.cur + 1)))) := by
            simp [List.append_assoc]
          rw [hassoc]
          refine List.Perm.append_left _ ?_
          simpa [filterGood] using perm_cons_append (s.recs.getD (s.cfP - 1) dRec)
            (filterGood ((orig.drop (s.cur + 1)).take
              (findGoodP (s.recs.set s.cur (s.recs.getD (s.cfP - 1) dRec)) s.cur
                (s.cfP - 2) - (s.cur + 1))))
      · -- copy_from_ fell to cur: inactive from now on
        have hcf2eq : findGoodP (s.recs.set s.cur (s.recs.getD (s.cfP - 1) dRec)) s.cur
            (s.cfP - 2) = s.cur + 1 := by omega
        refine CInv_mk orig _ _ _ hlen2 (by omega) hA2 (Or.inr ⟨by omega, ?_, ?_⟩)
        · rw [hcf2eq]; exact hgoods2
        · rw [hcf2eq, htake]
          rw [← hsrcval, hcf2eq] at hperm
          have hnil : (orig.drop (s.cur + 1)).take ((s.cur + 1) - (s.cur + 1)) = [] := by
            simp
          rw [hnil] at hperm
          simpa [filterGood] using hperm
    · -- record being left is marker-free: no copy
      have hgoodcur : hasMidBos (orig.getD s.cur dRec) = false := by
        rw [← hAcur]
        exact Bool.not_eq_true _ ▸ (by simpa using hbad)
      have hcond : ¬ (hasMidBos (s.recs.getD s.cur dRec) = true ∧ s.cur + 2 ≤ s.cfP) :=
        fun hh => hbad hh.1
      unfold collapseStep
      rw [if_neg hcond]
      have hseg1 : (orig.drop s.cur).take (s.cfP - s.cur) =
          orig.getD s.cur dRec :: (orig.drop (s.cur + 1)).take (s.cfP - (s.cur + 1)) :=
        seg_cons orig s.cur s.cfP dRec hcur (by omega)
      rw [hseg1, filterGood_cons_good _ _ hgoodcur] at hperm
      have htake : s.recs.take (s.cur + 1) = s.recs.take s.cur ++ [orig.getD s.cur dRec] := by
        rw [take_succ_of_lt s.recs s.cur dRec (by omega), hAcur]
      have hgoods2 : ∀ r ∈ s.recs.take (s.cur + 1), hasMidBos r = false := by
        intro r hr
        rw [htake] at hr
        rcases List.mem_append.mp hr with hr1 | hr2
        · exact hpre r hr1
        · rw [List.mem_singleton.mp hr2]; exact hgoodcur
      by_cases hsplit : s.cur + 2 ≤ s.cfP
      · -- still active
        refine CInv_mk orig _ _ _ hlen (by omega) (fun j hj => hA j (by omega))
          (Or.inl ⟨by omega, hcf_le, hcfgood, hgoods2, ?_⟩)
        rw [htake]
        have hassoc : (s.recs.take s.cur ++ [orig.getD s.cur dRec]) ++
            filterGood ((orig.drop (s.cur + 1)).take (s.cfP - (s.cur + 1))) =
            s.recs.take s.cur ++ (orig.getD s.cur dRec ::
              filterGood ((orig.drop (s.cur + 1)).take (s.cfP - (s.cur + 1)))) := by
          simp [List.append_assoc]
        rw [hassoc]
        exact hperm
      · -- cfP = cur + 1: cursor reaches copy_from_; inactive from now on
        have hcf1 : s.cfP = s.cur + 1 := by omega
        refine CInv_mk orig _ _ _ hlen (by omega) (fun j hj => hA j (by omega))
          (Or.inr ⟨by omega, ?_, ?_⟩)
        · rw [hcf1]; exact hgoods2
        · rw [hcf1, htake]
          have hnil : (orig.drop (s.cur + 1)).take (s.cfP - (s.cur + 1)) = [] := by
            rw [hcf1]; simp
          rw [hnil] at hperm
          simpa using hperm
  · -- inactive: nothing changes but the cursor position
    have hcond : ¬ (hasMidBos (s.recs.getD s.cur dRec) = true ∧ s.cur + 2 ≤ s.cfP) := by
      rintro ⟨-, h2⟩; omega
    unfold collapseStep
    rw [if_neg hcond]
    exact CInv_mk orig _ _ _ hlen (by omega) (fun j hj => hA j (by omega))
      (Or.inr ⟨by omega, hgood, hperm⟩)

/-- Iterating the cursor `n` steps from an invariant state yields exactly
the original records of the traversed segment and lands in an invariant
state whose cursor is at the end of the block. -/
theorem collapseIter_inv (orig : List NGramRec) :
    ∀ (n : Nat) (s : CState), CInv orig s → s.cur + n = orig.length →
      (collapseIter n s).1 = (orig.drop s.cur).take n ∧
      CInv orig (collapseIter n s).2 ∧
      (collapseIter n s).2.cur = orig.length := by
  intro n
  induction n with
  | zero =>
    intro s h hn
    refine ⟨by simp [collapseIter], h, ?_⟩
    simp only [collapseIter]
    omega
  | succ n ih =>
    intro s h hn
    have hcur : s.cur < orig.length := by omega
    have hstep := collapseStep_inv orig s h hcur
    have hstepcur : (collapseStep s).cur = s.cur + 1 := by
      unfold collapseStep
      by_cases hc : hasMidBos (s.recs.getD s.cur dRec) = true ∧ s.cur + 2 ≤ s.cfP
      · rw [if_pos hc]
      · rw [if_neg hc]
    obtain ⟨hy, hinv, hfin⟩ := ih (collapseStep s) hstep (by omega)
    obtain ⟨hlen, hcle, hA, hcase⟩ := h
    refine ⟨?_, hinv, hfin⟩
    show s.recs.getD s.cur dRec :: (collapseIter n (collapseStep s)).1 =
      (orig.drop s.cur).take (n + 1)
    have hseg : (orig.drop s.cur).take (n + 1) =
        orig.getD s.cur dRec :: (orig.drop (s.cur + 1)).take n := by
      rw [List.drop_eq_getElem_cons hcur, List.take_succ_cons]
      simp [List.getD_eq_getElem?_getD, List.getElem?_eq_getElem hcur]
    rw [hstepcur] at hy
    rw [hseg, hA s.cur (le_refl _), hy]

theorem filterGood_length (l : List NGramRec) :
    (filterGood l).length = l.length - (l.filter fun r => hasMidBos r).length := by
  induction l with
  | nil => rfl
  | cons x xs ih =>
    have hle := List.length_filter_le (fun r => hasMidBos r) xs
    by_cases hx : hasMidBos x = true
    · rw [filterGood_cons_bad _ _ hx]
      have hf : List.filter (fun r => hasMidBos r) (x :: xs) =
          x :: xs.filter (fun r => hasMidBos r) := by
        simp [List.filter_cons, hx]
      rw [hf, ih]
      simp only [List.length_cons]
      omega
    · have hx' : hasMidBos x = false := by simpa using hx
      rw [filterGood_cons_good _ _ hx']
      have hf : List.filter (fun r => hasMidBos r) (x :: xs) =
          xs.filter (fun r => hasMidBos r) := by
        simp [List.filter_cons, hx']
      rw [hf]
      simp only [List.length_cons]
      rw [ih]
      omega

/-- Main per-block lemma for `CollapseStream`: over one block the cursor
yields every record, in their original order; once the cursor has left, the
block's surviving valid region consists of marker-free records only and is,
up to order, exactly the multiset of the block's marker-free records. -/
theorem collapseBlock_main (b : List NGramRec) :
    (collapseBlock b).1 = b ∧
    (∀ r ∈ (collapseBlock b).2, hasMidBos r = false) ∧
    List.Perm (collapseBlock b).2 (filterGood b) := by
  by_cases hb : b = []
  · subst hb
    refine ⟨rfl, ?_, ?_⟩
    · intro r hr
      simp [collapseBlock, collapseIter] at hr
    · simp [collapseBlock, collapseIter, filterGood]
  · have hlen1 : 1 ≤ b.length := by
      cases b with
      | nil => exact absurd rfl hb
      | cons x xs => simp
    obtain ⟨sp1, sp2, sp3, sp4⟩ := findGoodP_spec b 0 (b.length - 1)
    have hFle : findGoodP b 0 (b.length - 1) ≤ b.length := by
      have h11 : b.length - 1 + 1 = b.length := by omega
      rw [h11] at sp2
      omega
    have hdropbad : ∀ r ∈ b.drop (findGoodP b 0 (b.length - 1)), hasMidBos r = true := by
      intro r hr
      have hr' : r ∈ (b.drop (findGoodP b 0 (b.length - 1))).take
          (b.length - findGoodP b 0 (b.length - 1)) := by
        have hdl : b.length - findGoodP b 0 (b.length - 1) =
            (b.drop (findGoodP b 0 (b.length - 1))).length := by simp
        rw [hdl, List.take_length]
        exact hr
      obtain ⟨j, hj1, hj2, hj3, hj4⟩ :=
        mem_seg_getD b (findGoodP b 0 (b.length - 1)) _ dRec r hr'
      rw [← hj4]
      exact sp4 j hj1 (by omega) (by omega)
    have hfgdrop : filterGood (b.drop (findGoodP b 0 (b.length - 1))) = [] :=
      filterGood_eq_nil _ hdropbad
    have hfgsplit : filterGood b = filterGood (b.take (findGoodP b 0 (b.length - 1))) := by
      conv =>
        lhs
        rw [← List.take_append_drop (findGoodP b 0 (b.length - 1)) b]
      rw [filterGood_append, hfgdrop, List.append_nil]
    have hinv : CInv b ⟨b, 0, findGoodP b 0 (b.length - 1)⟩ := by
      by_cases hF : 1 ≤ findGoodP b 0 (b.length - 1)
      · refine CInv_mk b b 0 _ rfl (by omega) (fun j hj => rfl)
          (Or.inl ⟨by omega, hFle, sp3 (by omega), by simp, ?_⟩)
        rw [List.take_zero, List.nil_append, Nat.sub_zero, hfgsplit]
        exact List.Perm.refl _
      · have hF0 : findGoodP b 0 (b.length - 1) = 0 := by omega
        refine CInv_mk b b 0 _ rfl (by omega) (fun j hj => rfl)
          (Or.inr ⟨by omega, by simp [hF0], ?_⟩)
        rw [hF0, List.take_zero, hfgsplit, hF0, List.take_zero]
        exact List.Perm.refl _
    obtain ⟨hy, hfininv, hfincur⟩ :=
      collapseIter_inv b b.length ⟨b, 0, findGoodP b 0 (b.length - 1)⟩ hinv
        (by show 0 + b.length = b.length; omega)
    obtain ⟨hflen, hfcle, hfA, hfcase⟩ := hfininv
    have hsurv : (collapseBlock b).2 =
        (collapseIter b.length ⟨b, 0, findGoodP b 0 (b.length - 1)⟩).2.recs.take
          (collapseIter b.length ⟨b, 0, findGoodP b 0 (b.length - 1)⟩).2.cfP := rfl
    have hyield : (collapseBlock b).1 =
        (collapseIter b.length ⟨b, 0, findGoodP b 0 (b.length - 1)⟩).1 := rfl
    rcases hfcase with ⟨hac, hcf_le, -, -, -⟩ | ⟨-, hgoods, hperm⟩
    · omega
    · refine ⟨?_, ?_, ?_⟩
      · rw [hyield, hy, List.drop_zero, List.take_length]
      · rw [hsurv]; exact hgoods
      · rw [hsurv]; exact hperm

/-! ## Claims C3 and C4: `CollapseStream` -/

/-- C3 counterexample.  The claim states the compaction stream never yields
(through its dereference) a record whose `<s>` sits at word position 1 or
later.  A single block whose only record is `(5, <s>, 7)` refutes it: the
cursor is dereferenced once, before `operator++` can overwrite anything, and
yields that record. -/
theorem c3_counterexample :
    (collapseBlocks [[⟨[5, kBOS, 7], 1⟩]]).1 = [⟨[5, kBOS, 7], 1⟩] ∧
    hasMidBos ⟨[5, kBOS, 7], 1⟩ = true := by decide

/-- C3 (amended): the cursor yields every record of every block, in block
order — including records with an interior sentence-start marker; the
no-interior-marker guarantee holds instead of the blocks' surviving valid
regions after the cursor has passed (what the stage hands downstream). -/
theorem c3_collapse_stream (bs : List (List NGramRec)) :
    (collapseBlocks bs).1 = bs.flatten ∧
    ∀ blk ∈ (collapseBlocks bs).2, ∀ r ∈ blk, hasMidBos r = false := by
  constructor
  · have hmap : (bs.map fun b => (collapseBlock b).1) = bs := by
      induction bs with
      | nil => rfl
      | cons b rest ih => simp [ih, (collapseBlock_main b).1]
    show (bs.map fun b => (collapseBlock b).1).flatten = bs.flatten
    rw [hmap]
  · intro blk hblk r hr
    have hmem : blk ∈ bs.map fun b => (collapseBlock b).2 := hblk
    obtain ⟨b, hb, hbeq⟩ := List.mem_map.mp hmem
    rw [← hbeq] at hr
    exact (collapseBlock_main b).2.1 r hr

/-- C4 counterexample.  The claim states the cursor yields exactly `k - m`
records over a block with `k` records of which `m` have an interior marker.
For the block `[(5, <s>, 7); (5, 6, 7)]` we have `k = 2`, `m = 1`, yet the
cursor yields 2 records, not 1. -/
theorem c4_counterexample :
    ((collapseBlock [⟨[5, kBOS, 7], 1⟩, ⟨[5, 6, 7], 2⟩]).1).length = 2 ∧
    (List.filter (fun r => hasMidBos r) [⟨[5, kBOS, 7], 1⟩, ⟨[5, 6, 7], 2⟩]).length
      = 1 ∧
    ¬ ((collapseBlock [⟨[5, kBOS, 7], 1⟩, ⟨[5, 6, 7], 2⟩]).1).length = 2 - 1 := by
  decide

/-- C4 (amended): over a block of `k` records of which `m` carry the marker
at position 1 or later, the cursor yields exactly `k` records (all of them,
in order); after the cursor leaves the block the valid region has shrunk by
exactly `m` records' worth, and it holds exactly the `k - m` marker-free
records, possibly reordered. -/
theorem c4_collapse_block (b : List NGramRec) :
    (collapseBlock b).1 = b ∧
    (collapseBlock b).2.length =
      b.length - (List.filter (fun r => hasMidBos r) b).length ∧
    List.Perm (collapseBlock b).2 (filterGood b) := by
  obtain ⟨h1, h2, h3⟩ := collapseBlock_main b
  refine ⟨h1, ?_, h3⟩
  rw [List.Perm.length_eq h3, filterGood_length]

/-! ## `AdjustCounts::Run` (adjust_counts.cc lines 122–192)

The driver state keeps, for each lower order `i + 1` (index `i`), the
currently open record (the C++ "valid" streams up to `lower_valid`; slots
above `lower_valid` hold garbage and are never read, so the model keeps
only the valid stack).  Each lower-order output channel is modelled as the
trace of events published on it: advancing a stream publishes its record,
`Poison()` publishes the end-of-data marker. -/

/-- An observable event on a lower-order output channel. -/
inductive ChanEvent
  | out (r : NGramRec)
  | poison
deriving DecidableEq, Repr

/-- Driver state: open records (index `i` = order `i + 1`, length =
`lower_valid - streams.begin() + 1`), per-channel event traces, and the
statistics collector. -/
structure AdjustState where
  opens : List NGramRec
  chans : List (List ChanEvent)
  stats : List OrderStat
deriving DecidableEq, Repr

/-- The flush loop of lines 155–158, which walks `lower_valid` downward:
`stats.Add` is applied to slot `base` after the recursion on the higher
slots, matching the descending order of the C++ loop. -/
def addDown (stats : List OrderStat) (base : Nat) : List NGramRec → Option (List OrderStat)
  | [] => some stats
  | r :: rest => do
      let st1 ← addDown stats (base + 1) rest
      statsAdd st1 base r.count

/-- The final flush loop of lines 183–186, ascending from the unigram slot. -/
def addUp (stats : List OrderStat) (base : Nat) : List NGramRec → Option (List OrderStat)
  | [] => some stats
  | r :: rest => do
      let st1 ← statsAdd stats base r.count
      addUp st1 (base + 1) rest

/-- Advancing stream `base + t` (`++*lower_valid` / `++*s`) publishes record
`rs.getD t` on channel `base + t`. -/
def emitEach (chans : List (List ChanEvent)) (base : Nat) :
    List NGramRec → List (List ChanEvent)
  | [] => chans
  | r :: rest =>
      emitEach (chans.set base (chans.getD base [] ++ [ChanEvent.out r])) (base + 1) rest

/-- The `<s>` walk of lines 162–178, starting at position `p` of the word
list (the divergence point) and moving toward position 0: while the walk
has neither reached position 0 nor a `<s>`, a record holding the suffix
from the current position is opened with count 1; on hitting a `<s>`
strictly before position 0 a record holding the suffix from the marker is
opened with the raw count `c` (and `AddFull` is not signalled); on reaching
position 0 the flag for `stats.AddFull` is returned instead.  The records
are listed in opening order (longest-suffix record last). -/
def boswalk (ws : List Word) (c : Nat) : Nat → List NGramRec × Bool
  | 0 => ([], true)
  | p + 1 =>
    if ws.getD (p + 1) 0 = kBOS then ([⟨ws.drop (p + 1), c⟩], false)
    else
      let rest := boswalk ws c p
      (⟨ws.drop (p + 1), 1⟩ :: rest.1, rest.2)

/-- Where the `<s>` walk starting at `p` stops: the largest position
`q ≤ p`, `q ≥ 1`, holding `<s>`, or 0 when there is none. -/
def walkStop (ws : List Word) : Nat → Nat
  | 0 => 0
  | p + 1 => if ws.getD (p + 1) 0 = kBOS then p + 1 else walkStop ws p

/-- Line 152: `if (same) ++streams[same - 1]->Count();`. -/
def bumpAt (opens : List NGramRec) (same : Nat) : List NGramRec :=
  if 0 < same then
    opens.set (same - 1) ⟨(opens.getD (same - 1) dRec).words,
      (opens.getD (same - 1) dRec).count + 1⟩
  else opens

/-- The body of one loop iteration once `different` and `same` have been
computed (lines 151–179): the increment of line 152 (`bumpAt`), the flush
of lines 155–158 (`addDown` on the collector, one record published per
flushed channel), and the `<s>` walk of lines 162–178 with its final
`AddFull`-or-verbatim-record alternative.  `none` propagates the
collector's out-of-bounds histogram access (count 0). -/
def runStepWith (st : AdjustState) (f : NGramRec) (d same : Nat) : Option AdjustState :=
  match addDown st.stats same ((bumpAt st.opens same).drop same) with
  | none => none
  | some stats1 =>
    match (if (boswalk f.words f.count d).2 then addFullStat stats1 f.count
        else some stats1) with
    | none => none
    | some stats2 =>
      some ⟨(bumpAt st.opens same).take same ++ (boswalk f.words f.count d).1,
        emitEach st.chans same ((bumpAt st.opens same).drop same), stats2⟩

/-- One iteration of the main loop (lines 148–179): compute the divergence
point (line 149) and `same` (line 150), then run the body. -/
def runStep (st : AdjustState) (f : NGramRec) : Option AdjustState :=
  let lower := st.opens.getLastD dRec
  let d := findDifference f.words lower.words
  let same := f.words.length - 1 - d
  runStepWith st f d same

/-- What `Run` produces: the per-order totals and discount sets written by
`Complete`, and the trace of every lower-order channel. -/
structure AdjustOutput where
  counts : List Nat
  discounts : List (List ℚ)
  chans : List (List ChanEvent)
deriving DecidableEq, Repr

/-- Initial driver state (lines 143–146): the unigram record is opened with
count 0 and its single word set to the last word of the first maximum-order
record; `order - 1` channels, zeroed statistics. -/
def initState (order : Nat) (f0 : NGramRec) : AdjustState :=
  ⟨[⟨[f0.words.getLastD 0], 0⟩], List.replicate (order - 1) [], zeroStats order⟩

/-- `AdjustCounts::Run`, consuming the list of maximum-order records that
the compaction cursor yields.  Order 1 only collects `AddFull` statistics
(lines 125–131).  An empty maximum-order stream finalizes zeroed statistics
and returns at line 140 — without publishing anything, and in particular
without poisoning the `order - 1` lower-order channels.  Otherwise the loop
runs, the still-open records are flushed (lines 183–186), every lower-order
channel is poisoned (lines 188–190), and statistics are completed. -/
def adjustRun (order : Nat) (fulls : List NGramRec) : Option AdjustOutput :=
  if order = 1 then do
    let stats ← fulls.foldlM (fun st f => addFullStat st f.count) (zeroStats 1)
    some ⟨completeCounts stats, completeDiscounts stats, []⟩
  else
    match fulls with
    | [] =>
      some ⟨completeCounts (zeroStats order), completeDiscounts (zeroStats order),
        List.replicate (order - 1) []⟩
    | f0 :: _ => do
      let st ← fulls.foldlM runStep (initState order f0)
      let statsF ← addUp st.stats 0 st.opens
      let chansF := emitEach st.chans 0 st.opens
      some ⟨completeCounts statsF, completeDiscounts statsF,
        chansF.map fun ch => ch ++ [ChanEvent.poison]⟩

/-! ### Helper lemmas for the driver proofs -/

theorem getLastD_eq_getD {α : Type} (l : List α) (d : α) :
    l.getLastD d = l.getD (l.length - 1) d := by
  rw [List.getLastD_eq_getLast?, List.getLast?_eq_getElem?, List.getD_eq_getElem?_getD]

theorem statAdd_pos (s : OrderStat) (c : Nat) (hc : 1 ≤ c) :
    ∃ s', s.statAdd c = some s' ∧ s'.count = s.count + 1 := by
  have hc0 : c ≠ 0 := by omega
  unfold OrderStat.statAdd
  by_cases h5 : c < 5
  · simp only [h5, if_true, hc0, if_false]
    exact ⟨_, rfl, rfl⟩
  · simp only [h5, if_false]
    exact ⟨_, rfl, rfl⟩

theorem statsAdd_spec (stats : List OrderStat) (slot c : Nat)
    (hc : 1 ≤ c) (hs : slot < stats.length) :
    ∃ out, statsAdd stats slot c = some out ∧ out.length = stats.length ∧
      (stats.getD slot zeroStat).statAdd c = some (out.getD slot zeroStat) ∧
      ∀ i, i ≠ slot → out.getD i zeroStat = stats.getD i zeroStat := by
  obtain ⟨s', hs', hcnt⟩ := statAdd_pos (stats.getD slot zeroStat) c hc
  refine ⟨stats.set slot s', ?_, by simp, ?_, ?_⟩
  · unfold statsAdd
    rw [hs']
  · rw [getD_set_self _ _ _ _ hs]
    exact hs'
  · intro i hi
    exact getD_set_ne _ _ _ _ _ (fun he => hi he.symm)

theorem addDown_spec (rs : List NGramRec) :
    ∀ (stats : List OrderStat) (base : Nat),
      (∀ r ∈ rs, 1 ≤ r.count) → base + rs.length ≤ stats.length →
      ∃ out, addDown stats base rs = some out ∧
        out.length = stats.length ∧
        (∀ i, (i < base ∨ base + rs.length ≤ i) →
          out.getD i zeroStat = stats.getD i zeroStat) ∧
        (∀ t, t < rs.length →
          (stats.getD (base + t) zeroStat).statAdd ((rs.getD t dRec).count) =
            some (out.getD (base + t) zeroStat)) := by
  induction rs with
  | nil =>
    intro stats base hcnt hlen
    exact ⟨stats, rfl, rfl, fun i _ => rfl, fun t ht => absurd ht (by simp)⟩
  | cons r rest ih =>
    intro stats base hcnt hlen
    obtain ⟨out1, hout1, hlen1, hfix1, hadd1⟩ := ih stats (base + 1)
      (fun x hx => hcnt x (List.mem_cons_of_mem r hx)) (by simp at hlen ⊢; omega)
    have hb1 : out1.getD base zeroStat = stats.getD base zeroStat :=
      hfix1 base (Or.inl (by omega))
    obtain ⟨out2, hout2, hlen2, hslot2, hfix2⟩ := statsAdd_spec out1 base r.count
      (hcnt r (List.mem_cons_self r rest)) (by rw [hlen1]; simp at hlen; omega)
    refine ⟨out2, ?_, by omega, ?_, ?_⟩
    · unfold addDown
      rw [hout1]
      exact hout2
    · intro i hi
      rw [hfix2 i (by simp at hi; omega), hfix1 i (by simp at hi; omega)]
    · intro t ht
      cases t with
      | zero =>
        have h0 : (r :: rest).getD 0 dRec = r := rfl
        have hb0 : base + 0 = base := rfl
        rw [hb0, h0, ← hb1]
        exact hslot2
      | succ t' =>
        have hrest : (rest.getD t' dRec).count = ((r :: rest).getD (t' + 1) dRec).count := by
          simp [List.getD_eq_getElem?_getD]
        have hplus : base + (t' + 1) = (base + 1) + t' := by omega
        rw [hplus, ← hrest, hfix2 ((base + 1) + t') (by omega)]
        exact hadd1 t' (by simp at ht; omega)

theorem emitEach_spec (rs : List NGramRec) :
    ∀ (chans : List (List ChanEvent)) (base : Nat),
      base + rs.length ≤ chans.length →
      (emitEach chans base rs).length = chans.length ∧
      (∀ i, (i < base ∨ base + rs.length ≤ i) →
        (emitEach chans base rs).getD i [] = chans.getD i []) ∧
      (∀ t, t < rs.length →
        (emitEach chans base rs).getD (base + t) [] =
          chans.getD (base + t) [] ++ [ChanEvent.out (rs.getD t dRec)]) := by
  induction rs with
  | nil =>
    intro chans base hlen
    exact ⟨rfl, fun i _ => rfl, fun t ht => absurd ht (by simp)⟩
  | cons r rest ih =>
    intro chans base hlen
    have hbase : base < chans.length := by simp at hlen; omega
    have hunfold : emitEach chans base (r :: rest) =
        emitEach (chans.set base (chans.getD base [] ++ [ChanEvent.out r]))
          (base + 1) rest := rfl
    obtain ⟨hl1, hfix1, hset1⟩ := ih
      (chans.set base (chans.getD base [] ++ [ChanEvent.out r])) (base + 1)
      (by simp at hlen ⊢; omega)
    refine ⟨?_, ?_, ?_⟩
    · rw [hunfold, hl1]; simp
    · intro i hi
      have hi' : i < base + 1 ∨ base + 1 + rest.length ≤ i := by
        simp at hi; omega
      have hne : base ≠ i := by simp at hi; omega
      rw [hunfold, hfix1 i hi', getD_set_ne _ _ _ _ _ hne]
    · intro t ht
      cases t with
      | zero =>
        have h0 : (r :: rest).getD 0 dRec = r := rfl
        have hb0 : base + 0 = base := rfl
        rw [hunfold, hb0, h0, hfix1 base (Or.inl (by omega)),
          getD_set_self _ _ _ _ hbase]
      | succ t' =>
        have hplus : base + (t' + 1) = (base + 1) + t' := by omega
        have hx : (r :: rest).getD (t' + 1) dRec = rest.getD t' dRec := by
          simp [List.getD_eq_getElem?_getD]
        rw [hunfold, hplus, hx, hset1 t' (by simp at ht; omega),
          getD_set_ne _ _ _ _ _ (by omega)]

theorem walkStop_le (ws : List Word) : ∀ p, walkStop ws p ≤ p := by
  intro p
  induction p with
  | zero => exact le_refl _
  | succ p ih =>
    unfold walkStop
    by_cases h : ws.getD (p + 1) 0 = kBOS
    · rw [if_pos h]
    · rw [if_neg h]; omega

theorem walkStop_bos (ws : List Word) :
    ∀ p, 1 ≤ walkStop ws p → ws.getD (walkStop ws p) 0 = kBOS := by
  intro p
  induction p with
  | zero => intro h; simp [walkStop] at h
  | succ p ih =>
    intro h
    by_cases hm : ws.getD (p + 1) 0 = kBOS
    · simp only [walkStop, if_pos hm]
      exact hm
    · simp only [walkStop, if_neg hm] at h ⊢
      exact ih h

theorem walkStop_none (ws : List Word) :
    ∀ p q, walkStop ws p < q → q ≤ p → ws.getD q 0 ≠ kBOS := by
  intro p
  induction p with
  | zero => intro q h1 h2 _; omega
  | succ p ih =>
    intro q h1 h2
    by_cases hm : ws.getD (p + 1) 0 = kBOS
    · rw [walkStop, if_pos hm] at h1
      omega
    · rw [walkStop, if_neg hm] at h1
      by_cases hq : q ≤ p
      · exact ih q h1 hq
      · have : q = p + 1 := by omega
        rw [this]
        exact hm

theorem ranged_getD {α : Type} (n : Nat) (g : Nat → α) (t : Nat) (d : α) (h : t < n) :
    ((List.range n).map g).getD t d = g t := by
  rw [List.getD_eq_getElem?_getD, List.getElem?_map, List.getElem?_range h]
  rfl

/-- Closed form of the `<s>` walk: count-1 records for every suffix strictly
between the walk stop and the divergence point, then either nothing (walk
reached the first word: `AddFull` flag) or the verbatim-count record at the
marker. -/
theorem boswalk_closed (ws : List Word) (c : Nat) :
    ∀ p, boswalk ws c p =
      ((List.range (p - walkStop ws p)).map
          (fun t => (⟨ws.drop (p - t), 1⟩ : NGramRec)) ++
        (if walkStop ws p = 0 then [] else [⟨ws.drop (walkStop ws p), c⟩]),
       walkStop ws p == 0) := by
  intro p
  induction p with
  | zero => simp [boswalk, walkStop]
  | succ p ih =>
    by_cases hm : ws.getD (p + 1) 0 = kBOS
    · rw [boswalk, if_pos hm, walkStop, if_pos hm]
      simp
    · rw [boswalk, if_neg hm, walkStop, if_neg hm, ih]
      have hle := walkStop_le ws p
      have hsub : p + 1 - walkStop ws p = (p - walkStop ws p) + 1 := by omega
      rw [hsub, List.range_succ_eq_map]
      simp only [List.map_cons, List.map_map, Nat.sub_zero]
      have hmap : List.map ((fun t => (⟨ws.drop (p + 1 - t), 1⟩ : NGramRec)) ∘ Nat.succ)
          (List.range (p - walkStop ws p)) =
          List.map (fun t => (⟨ws.drop (p - t), 1⟩ : NGramRec))
            (List.range (p - walkStop ws p)) := by
        apply List.map_congr_left
        intro t ht
        have htn : t < p - walkStop ws p := List.mem_range.mp ht
        simp only [Function.comp]
        congr 2
        omega
      rw [hmap, List.cons_append]

theorem bumpAt_length (opens : List NGramRec) (same : Nat) :
    (bumpAt opens same).length = opens.length := by
  unfold bumpAt
  by_cases h0 : 0 < same
  · rw [if_pos h0]; simp
  · rw [if_neg h0]

theorem bumpAt_getD_high (opens : List NGramRec) (same : Nat) (i : Nat) (hi : same ≤ i) :
    (bumpAt opens same).getD i dRec = opens.getD i dRec := by
  unfold bumpAt
  by_cases h0 : 0 < same
  · rw [if_pos h0, getD_set_ne _ _ _ _ _ (by omega)]
  · rw [if_neg h0]

theorem bumpAt_getD_low (opens : List NGramRec) (same : Nat) (i : Nat) (hi : i + 1 < same) :
    (bumpAt opens same).getD i dRec = opens.getD i dRec := by
  unfold bumpAt
  rw [if_pos (by omega), getD_set_ne _ _ _ _ _ (by omega)]

theorem bumpAt_getD_same (opens : List NGramRec) (same : Nat) (h0 : 0 < same)
    (hle : same ≤ opens.length) :
    (bumpAt opens same).getD (same - 1) dRec =
      ⟨(opens.getD (same - 1) dRec).words, (opens.getD (same - 1) dRec).count + 1⟩ := by
  unfold bumpAt
  rw [if_pos h0, getD_set_self _ _ _ _ (by omega)]

theorem boswalk_fst_length (ws : List Word) (c p : Nat) :
    (boswalk ws c p).1.length = p - walkStop ws p +
      (if walkStop ws p = 0 then 0 else 1) := by
  rw [boswalk_closed]
  by_cases hps : walkStop ws p = 0 <;> simp [hps]

theorem boswalk_fst_getD_low (ws : List Word) (c p t : Nat)
    (ht : t < p - walkStop ws p) :
    (boswalk ws c p).1.getD t dRec = ⟨ws.drop (p - t), 1⟩ := by
  rw [boswalk_closed]
  show (((List.range (p - walkStop ws p)).map _) ++ _).getD t dRec = _
  rw [getD_append_lt _ _ _ _ (by simpa using ht), ranged_getD _ _ _ _ ht]

theorem boswalk_fst_getD_marker (ws : List Word) (c p : Nat)
    (hps : 1 ≤ walkStop ws p) :
    (boswalk ws c p).1.getD (p - walkStop ws p) dRec =
      ⟨ws.drop (walkStop ws p), c⟩ := by
  rw [boswalk_closed]
  show (((List.range (p - walkStop ws p)).map _) ++ _).getD (p - walkStop ws p) dRec = _
  rw [getD_append_ge _ _ _ _ (by simp)]
  have h0 : walkStop ws p = 0 → False := by omega
  simp only [if_neg (fun h => h0 h)]
  simp

/-- Well-formedness of the driver state for order `N`: at least one open
record (the `lower_valid >= &streams[0]` assertion of line 179), at most
`N - 1` of them, the open record at index `i` has order `i + 1`, `N - 1`
output channels, `N` collector slots. -/
def DriverInv (N : Nat) (st : AdjustState) : Prop :=
  0 < st.opens.length ∧ st.opens.length ≤ N - 1 ∧
  (∀ i, i < st.opens.length → (st.opens.getD i dRec).words.length = i + 1) ∧
  st.chans.length = N - 1 ∧ st.stats.length = N

/-- Every open running count is at least 1.  This holds after the first
loop iteration; the initial unigram record starts at count 0 but is
incremented before anything can flush it. -/
def CntInv (st : AdjustState) : Prop :=
  ∀ i, i < st.opens.length → 1 ≤ (st.opens.getD i dRec).count

/-- Master lemma for one loop iteration, with `same` given and
`d = N - 1 - same` (the divergence point's index): the step succeeds
and realizes, point by point, what lines 151–179 do: the increment of the
order-`same` record, the flush (collector feed + channel publish + close)
of exactly the open records of order above `same`, the count-1 records
opened while walking to `walkStop`, the verbatim-count record at an
interior `<s>`, or the `AddFull` when the walk reaches the first word —
while preserving the driver invariant. -/
theorem runStepWith_main (N : Nat) (st : AdjustState) (f : NGramRec) (same : Nat)
    (hN : 2 ≤ N) (hws : f.words.length = N) (hc : 1 ≤ f.count)
    (hinv : DriverInv N st) (hsame_le : same ≤ st.opens.length)
    (hcnt : ∀ i, i < st.opens.length → i + 1 ≠ same →
      1 ≤ (st.opens.getD i dRec).count) :
    ∃ st', runStepWith st f (N - 1 - same) same = some st' ∧
      DriverInv N st' ∧ CntInv st' ∧
      (0 < same → st'.opens.getD (same - 1) dRec =
        ⟨(st.opens.getD (same - 1) dRec).words,
          (st.opens.getD (same - 1) dRec).count + 1⟩) ∧
      (∀ i, i + 1 < same → st'.opens.getD i dRec = st.opens.getD i dRec) ∧
      (∀ i, same ≤ i → i < st.opens.length →
        st'.chans.getD i [] =
          st.chans.getD i [] ++ [ChanEvent.out (st.opens.getD i dRec)]) ∧
      (∀ i, same ≤ i → i < st.opens.length →
        (st.stats.getD i zeroStat).statAdd ((st.opens.getD i dRec).count) =
          some (st'.stats.getD i zeroStat)) ∧
      (∀ i, i < same ∨ st.opens.length ≤ i →
        st'.chans.getD i [] = st.chans.getD i []) ∧
      (∀ i, i < N - 1 → i < same ∨ st.opens.length ≤ i →
        st'.stats.getD i zeroStat = st.stats.getD i zeroStat) ∧
      walkStop f.words (N - 1 - same) ≤ N - 1 - same ∧
      (1 ≤ walkStop f.words (N - 1 - same) →
        f.words.getD (walkStop f.words (N - 1 - same)) 0 = kBOS) ∧
      (∀ q, walkStop f.words (N - 1 - same) < q → q ≤ N - 1 - same →
        f.words.getD q 0 ≠ kBOS) ∧
      (∀ q, walkStop f.words (N - 1 - same) < q → q ≤ N - 1 - same →
        st'.opens.getD (N - 1 - q) dRec = ⟨f.words.drop q, 1⟩) ∧
      (1 ≤ walkStop f.words (N - 1 - same) →
        st'.opens.getD (N - 1 - walkStop f.words (N - 1 - same)) dRec =
          ⟨f.words.drop (walkStop f.words (N - 1 - same)), f.count⟩) ∧
      (walkStop f.words (N - 1 - same) = 0 →
        (st.stats.getD (N - 1) zeroStat).statAdd f.count =
          some (st'.stats.getD (N - 1) zeroStat)) ∧
      (1 ≤ walkStop f.words (N - 1 - same) →
        st'.stats.getD (N - 1) zeroStat = st.stats.getD (N - 1) zeroStat) ∧
      st'.opens.length = same + (N - 1 - same - walkStop f.words (N - 1 - same)) +
        (if walkStop f.words (N - 1 - same) = 0 then 0 else 1) := by
  obtain ⟨hL0, hLle, hwlen, hclen, hslen⟩ := hinv
  have hblen := bumpAt_length st.opens same
  have hflen : ((bumpAt st.opens same).drop same).length = st.opens.length - same := by
    rw [List.length_drop, hblen]
  have hfget : ∀ t, t < st.opens.length - same →
      ((bumpAt st.opens same).drop same).getD t dRec = st.opens.getD (same + t) dRec := by
    intro t ht
    rw [getD_drop_add, bumpAt_getD_high _ _ _ (by omega)]
  have hfcnt : ∀ r ∈ (bumpAt st.opens same).drop same, 1 ≤ r.count := by
    intro r hr
    obtain ⟨t, ht, hteq⟩ := List.getElem_of_mem hr
    have ht' := ht
    rw [hflen] at ht'
    have h1 : ((bumpAt st.opens same).drop same).getD t dRec = r := by
      rw [List.getD_eq_getElem?_getD, List.getElem?_eq_getElem ht, Option.getD_some, hteq]
    rw [hfget t ht'] at h1
    rw [← h1]
    exact hcnt (same + t) (by omega) (by omega)
  obtain ⟨stats1, hst1, hst1len, hst1fix, hst1add⟩ :=
    addDown_spec ((bumpAt st.opens same).drop same) st.stats same hfcnt
      (by rw [hslen, hflen]; omega)
  obtain ⟨hemlen, hemfix, hemset⟩ :=
    emitEach_spec ((bumpAt st.opens same).drop same) st.chans same
      (by rw [hclen, hflen]; omega)
  have hdps : walkStop f.words (N - 1 - same) ≤ N - 1 - same := walkStop_le _ _
  have hbranch : ∃ stats2,
      (if (boswalk f.words f.count (N - 1 - same)).2 = true then
        addFullStat stats1 f.count else some stats1) = some stats2 ∧
      stats2.length = stats1.length ∧
      (∀ i, i ≠ N - 1 → stats2.getD i zeroStat = stats1.getD i zeroStat) ∧
      (walkStop f.words (N - 1 - same) = 0 →
        (stats1.getD (N - 1) zeroStat).statAdd f.count =
          some (stats2.getD (N - 1) zeroStat)) ∧
      (1 ≤ walkStop f.words (N - 1 - same) →
        stats2.getD (N - 1) zeroStat = stats1.getD (N - 1) zeroStat) := by
    by_cases hps0 : walkStop f.words (N - 1 - same) = 0
    · have hflag : (boswalk f.words f.count (N - 1 - same)).2 = true := by
        rw [boswalk_closed]
        simp [hps0]
      obtain ⟨stats2, hst2, hst2len, hst2slot, hst2fix⟩ :=
        statsAdd_spec stats1 (stats1.length - 1) f.count hc (by rw [hst1len, hslen]; omega)
      have hN1 : stats1.length - 1 = N - 1 := by rw [hst1len, hslen]
      refine ⟨stats2, ?_, by omega, ?_, ?_, ?_⟩
      · rw [hflag, if_pos rfl]
        exact hst2
      · intro i hi
        exact hst2fix i (by omega)
      · intro _
        rw [← hN1]
        exact hst2slot
      · intro h1
        omega
    · have hflag : (boswalk f.words f.count (N - 1 - same)).2 = false := by
        rw [boswalk_closed]
        simp [hps0]
      refine ⟨stats1, ?_, rfl, fun i _ => rfl, fun h0 => absurd h0 hps0, fun _ => rfl⟩
      rw [hflag, if_neg (by simp)]
  obtain ⟨stats2, h2, hst2len, hst2fix, hst2add, hst2keep⟩ := hbranch
  have hstat1top : stats1.getD (N - 1) zeroStat = st.stats.getD (N - 1) zeroStat :=
    hst1fix (N - 1) (Or.inr (by rw [hflen]; omega))
  have htklen : ((bumpAt st.opens same).take same).length = same := by
    rw [List.length_take, hblen]
    omega
  have hop_low : ∀ i, i < same →
      ((bumpAt st.opens same).take same ++
        (boswalk f.words f.count (N - 1 - same)).1).getD i dRec =
      (bumpAt st.opens same).getD i dRec := by
    intro i hi
    rw [getD_append_lt _ _ _ _ (by omega), getD_take_lt _ _ _ _ hi]
  have hop_high : ∀ i, same ≤ i →
      ((bumpAt st.opens same).take same ++
        (boswalk f.words f.count (N - 1 - same)).1).getD i dRec =
      (boswalk f.words f.count (N - 1 - same)).1.getD (i - same) dRec := by
    intro i hi
    rw [getD_append_ge _ _ _ _ (by omega), htklen]
  have hoplen : ((bumpAt st.opens same).take same ++
      (boswalk f.words f.count (N - 1 - same)).1).length =
      same + (N - 1 - same - walkStop f.words (N - 1 - same)) +
        (if walkStop f.words (N - 1 - same) = 0 then 0 else 1) := by
    rw [List.length_append, htklen, boswalk_fst_length]
    omega
  refine ⟨⟨(bumpAt st.opens same).take same ++ (boswalk f.words f.count (N - 1 - same)).1,
    emitEach st.chans same ((bumpAt st.opens same).drop same), stats2⟩,
    ?_, ⟨?_, ?_, ?_, ?_, ?_⟩, ?_, ?_, ?_, ?_, ?_, ?_, ?_, hdps, walkStop_bos _ _,
    walkStop_none _ _, ?_, ?_, ?_, ?_, hoplen⟩
  · -- the step computes
    unfold runStepWith
    simp only [hst1]
    simp only [h2]
  · -- 0 < |opens'|
    show 0 < ((bumpAt st.opens same).take same ++
      (boswalk f.words f.count (N - 1 - same)).1).length
    rw [hoplen]
    by_cases hps0 : walkStop f.words (N - 1 - same) = 0
    · rw [if_pos hps0]
      omega
    · rw [if_neg hps0]
      omega
  · -- |opens'| ≤ N - 1
    show ((bumpAt st.opens same).take same ++
      (boswalk f.words f.count (N - 1 - same)).1).length ≤ N - 1
    rw [hoplen]
    by_cases hps0 : walkStop f.words (N - 1 - same) = 0
    · rw [if_pos hps0]
      omega
    · rw [if_neg hps0]
      omega
  · -- words lengths
    intro i hi
    rw [hoplen] at hi
    by_cases hilow : i < same
    · rw [hop_low i hilow]
      by_cases hi1 : i + 1 < same
      · rw [bumpAt_getD_low _ _ _ hi1]
        exact hwlen i (by omega)
      · have hieq : i = same - 1 := by omega
        rw [hieq, bumpAt_getD_same _ _ (by omega) (by omega)]
        show (st.opens.getD (same - 1) dRec).words.length = same - 1 + 1
        exact hwlen (same - 1) (by omega)
    · rw [hop_high i (by omega)]
      by_cases hmk : i - same < (N - 1 - same) - walkStop f.words (N - 1 - same)
      · rw [boswalk_fst_getD_low _ _ _ _ hmk]
        show (f.words.drop ((N - 1 - same) - (i - same))).length = i + 1
        rw [List.length_drop, hws]
        omega
      · have hps1 : 1 ≤ walkStop f.words (N - 1 - same) := by
          by_contra hz
          have hz0 : walkStop f.words (N - 1 - same) = 0 := by omega
          have hite : (if walkStop f.words (N - 1 - same) = 0 then 0 else 1) = 0 :=
            if_pos hz0
          rw [hite] at hi
          omega
        have hmki : i - same = (N - 1 - same) - walkStop f.words (N - 1 - same) := by
          rw [if_neg (by omega)] at hi
          omega
        rw [hmki, boswalk_fst_getD_marker _ _ _ hps1]
        show (f.words.drop (walkStop f.words (N - 1 - same))).length = i + 1
        rw [List.length_drop, hws]
        omega
  · -- channel count
    show (emitEach st.chans same ((bumpAt st.opens same).drop same)).length = N - 1
    rw [hemlen, hclen]
  · -- collector slots
    show stats2.length = N
    omega
  · -- counts at least 1
    intro i hi
    rw [hoplen] at hi
    by_cases hilow : i < same
    · rw [hop_low i hilow]
      by_cases hi1 : i + 1 < same
      · rw [bumpAt_getD_low _ _ _ hi1]
        exact hcnt i (by omega) (by omega)
      · have hieq : i = same - 1 := by omega
        rw [hieq, bumpAt_getD_same _ _ (by omega) (by omega)]
        show 1 ≤ (st.opens.getD (same - 1) dRec).count + 1
        omega
    · rw [hop_high i (by omega)]
      by_cases hmk : i - same < (N - 1 - same) - walkStop f.words (N - 1 - same)
      · rw [boswalk_fst_getD_low _ _ _ _ hmk]
      · have hps1 : 1 ≤ walkStop f.words (N - 1 - same) := by
          by_contra hz
          have hz0 : walkStop f.words (N - 1 - same) = 0 := by omega
          have hite : (if walkStop f.words (N - 1 - same) = 0 then 0 else 1) = 0 :=
            if_pos hz0
          rw [hite] at hi
          omega
        have hmki : i - same = (N - 1 - same) - walkStop f.words (N - 1 - same) := by
          rw [if_neg (by omega)] at hi
          omega
        rw [hmki, boswalk_fst_getD_marker _ _ _ hps1]
        exact hc
  · -- the increment of line 152
    intro h0
    rw [hop_low (same - 1) (by omega), bumpAt_getD_same _ _ h0 (by omega)]
  · -- records strictly below the incremented one are untouched
    intro i hi
    rw [hop_low i (by omega), bumpAt_getD_low _ _ _ hi]
  · -- each flushed record is published on its own channel
    intro i hi1 hi2
    have ht := hemset (i - same) (by rw [hflen]; omega)
    have hplus : same + (i - same) = i := by omega
    rw [hplus] at ht
    rw [ht, hfget (i - same) (by omega), hplus]
  · -- each flushed record's final count is fed to its collector slot
    intro i hi1 hi2
    have ht := hst1add (i - same) (by rw [hflen]; omega)
    have hplus : same + (i - same) = i := by omega
    rw [hplus, hfget (i - same) (by omega), hplus] at ht
    show (st.stats.getD i zeroStat).statAdd ((st.opens.getD i dRec).count) =
      some (stats2.getD i zeroStat)
    rw [hst2fix i (by omega)]
    exact ht
  · -- channels outside the flushed range are untouched
    intro i hio
    refine hemfix i ?_
    rcases hio with h | h
    · exact Or.inl h
    · right
      rw [hflen]
      omega
  · -- collector slots outside the flushed range (and below the top) are untouched
    intro i hiN hio
    show stats2.getD i zeroStat = st.stats.getD i zeroStat
    rw [hst2fix i (by omega)]
    refine hst1fix i ?_
    rcases hio with h | h
    · exact Or.inl h
    · right
      rw [hflen]
      omega
  · -- count-1 records opened at the intervening orders
    intro q hq1 hq2
    have hidx : same ≤ N - 1 - q := by omega
    rw [hop_high _ hidx]
    have ht : (N - 1 - q) - same < (N - 1 - same) - walkStop f.words (N - 1 - same) := by
      omega
    rw [boswalk_fst_getD_low _ _ _ _ ht]
    have hqe : (N - 1 - same) - ((N - 1 - q) - same) = q := by omega
    rw [hqe]
  · -- the verbatim-count record at an interior marker
    intro hps1
    have hidx : same ≤ N - 1 - walkStop f.words (N - 1 - same) := by omega
    rw [hop_high _ hidx]
    have hqe : (N - 1 - walkStop f.words (N - 1 - same)) - same =
        (N - 1 - same) - walkStop f.words (N - 1 - same) := by omega
    rw [hqe, boswalk_fst_getD_marker _ _ _ hps1]
  · -- AddFull when the walk reaches the first word
    intro hps0
    show (st.stats.getD (N - 1) zeroStat).statAdd f.count =
      some (stats2.getD (N - 1) zeroStat)
    rw [← hstat1top]
    exact hst2add hps0
  · -- no AddFull when an interior marker is hit
    intro hps1
    show stats2.getD (N - 1) zeroStat = st.stats.getD (N - 1) zeroStat
    rw [hst2keep hps1, hstat1top]

/-- The number of trailing words `f` shares with the currently highest open
lower-order record of `st` — the `same` of the claims. -/
def sameOf (st : AdjustState) (f : NGramRec) : Nat :=
  matchRev f.words.reverse (st.opens.getLastD dRec).words.reverse

/-- In a well-formed state the `same` computed by lines 149–150 from
`FindDifference` equals the number of shared trailing words, and the loop
body runs with divergence index `N - 1 - same`. -/
theorem runStep_same_eq (N : Nat) (st : AdjustState) (f : NGramRec)
    (hN : 2 ≤ N) (hws : f.words.length = N) (hinv : DriverInv N st) :
    sameOf st f ≤ st.opens.length ∧
    runStep st f = runStepWith st f (N - 1 - sameOf st f) (sameOf st f) := by
  obtain ⟨hL0, hLle, hwlen, hclen, hslen⟩ := hinv
  have hlast : st.opens.getLastD dRec = st.opens.getD (st.opens.length - 1) dRec :=
    getLastD_eq_getD _ _
  have hlowlen : (st.opens.getLastD dRec).words.length = st.opens.length := by
    rw [hlast]
    have := hwlen (st.opens.length - 1) (by omega)
    omega
  have hm_le : sameOf st f ≤ st.opens.length := by
    have := matchRev_le_right f.words.reverse (st.opens.getLastD dRec).words.reverse
    rw [List.length_reverse, hlowlen] at this
    exact this
  refine ⟨hm_le, ?_⟩
  show runStepWith st f (findDifference f.words (st.opens.getLastD dRec).words)
    (f.words.length - 1 - findDifference f.words (st.opens.getLastD dRec).words) = _
  have hd : findDifference f.words (st.opens.getLastD dRec).words =
      N - 1 - sameOf st f := by
    unfold findDifference sameOf
    rw [hws]
  have hsame : f.words.length - 1 - (N - 1 - sameOf st f) = sameOf st f := by
    rw [hws]
    omega
  rw [hd, hsame]

/-- C1: for every maximum-order record processed by the driver (order ≥ 2),
with `same` the number of trailing words it shares with the highest open
record: if `same > 0`, the open record of order `same` has its running count
incremented by exactly 1 (words unchanged); exactly the open records of
order above `same` are finalized — their final count is fed to the
collector under their order's slot and they are published on their order's
channel — while every other channel and every other lower-order collector
slot is untouched, and the open records of order below `same` (other than
the incremented one) are unchanged. -/
theorem c1_adjust_step (N : Nat) (st : AdjustState) (f : NGramRec)
    (hN : 2 ≤ N) (hws : f.words.length = N) (hc : 1 ≤ f.count)
    (hinv : DriverInv N st) (hcnt : CntInv st) :
    ∃ st', runStep st f = some st' ∧
      (0 < sameOf st f → st'.opens.getD (sameOf st f - 1) dRec =
        ⟨(st.opens.getD (sameOf st f - 1) dRec).words,
          (st.opens.getD (sameOf st f - 1) dRec).count + 1⟩) ∧
      (∀ i, i + 1 < sameOf st f → st'.opens.getD i dRec = st.opens.getD i dRec) ∧
      (∀ i, sameOf st f ≤ i → i < st.opens.length →
        st'.chans.getD i [] =
          st.chans.getD i [] ++ [ChanEvent.out (st.opens.getD i dRec)]) ∧
      (∀ i, sameOf st f ≤ i → i < st.opens.length →
        (st.stats.getD i zeroStat).statAdd ((st.opens.getD i dRec).count) =
          some (st'.stats.getD i zeroStat)) ∧
      (∀ i, i < sameOf st f ∨ st.opens.length ≤ i →
        st'.chans.getD i [] = st.chans.getD i []) ∧
      (∀ i, i < N - 1 → i < sameOf st f ∨ st.opens.length ≤ i →
        st'.stats.getD i zeroStat = st.stats.getD i zeroStat) := by
  obtain ⟨hm_le, hreq⟩ := runStep_same_eq N st f hN hws hinv
  obtain ⟨st', hsome, _, _, a1, a2, a3, a4, a5, a6, -⟩ :=
    runStepWith_main N st f (sameOf st f) hN hws hc hinv hm_le
      (fun i hi _ => hcnt i hi)
  exact ⟨st', by rw [hreq]; exact hsome, a1, a2, a3, a4, a5, a6⟩

theorem c1_adjust_step_witness :
    2 ≤ 3 ∧ (⟨[9, 6, 7], 1⟩ : NGramRec).words.length = 3 ∧
    1 ≤ (⟨[9, 6, 7], 1⟩ : NGramRec).count ∧
    DriverInv 3 ⟨[⟨[7], 2⟩, ⟨[5, 7], 1⟩], [[], []], zeroStats 3⟩ ∧
    CntInv ⟨[⟨[7], 2⟩, ⟨[5, 7], 1⟩], [[], []], zeroStats 3⟩ ∧
    (∃ st', runStep ⟨[⟨[7], 2⟩, ⟨[5, 7], 1⟩], [[], []], zeroStats 3⟩ ⟨[9, 6, 7], 1⟩
        = some st' ∧
      (0 < sameOf ⟨[⟨[7], 2⟩, ⟨[5, 7], 1⟩], [[], []], zeroStats 3⟩ ⟨[9, 6, 7], 1⟩ →
        st'.opens.getD (sameOf ⟨[⟨[7], 2⟩, ⟨[5, 7], 1⟩], [[], []], zeroStats 3⟩
            ⟨[9, 6, 7], 1⟩ - 1) dRec =
        ⟨((⟨[⟨[7], 2⟩, ⟨[5, 7], 1⟩], [[], []], zeroStats 3⟩ :
            AdjustState).opens.getD (sameOf ⟨[⟨[7], 2⟩, ⟨[5, 7], 1⟩], [[], []],
              zeroStats 3⟩ ⟨[9, 6, 7], 1⟩ - 1) dRec).words,
          ((⟨[⟨[7], 2⟩, ⟨[5, 7], 1⟩], [[], []], zeroStats 3⟩ :
            AdjustState).opens.getD (sameOf ⟨[⟨[7], 2⟩, ⟨[5, 7], 1⟩], [[], []],
              zeroStats 3⟩ ⟨[9, 6, 7], 1⟩ - 1) dRec).count + 1⟩) ∧
      (∀ i, i + 1 < sameOf ⟨[⟨[7], 2⟩, ⟨[5, 7], 1⟩], [[], []], zeroStats 3⟩
          ⟨[9, 6, 7], 1⟩ →
        st'.opens.getD i dRec = (⟨[⟨[7], 2⟩, ⟨[5, 7], 1⟩], [[], []], zeroStats 3⟩ :
          AdjustState).opens.getD i dRec) ∧
      (∀ i, sameOf ⟨[⟨[7], 2⟩, ⟨[5, 7], 1⟩], [[], []], zeroStats 3⟩ ⟨[9, 6, 7], 1⟩ ≤ i →
          i < (⟨[⟨[7], 2⟩, ⟨[5, 7], 1⟩], [[], []], zeroStats 3⟩ :
            AdjustState).opens.length →
        st'.chans.getD i [] = (⟨[⟨[7], 2⟩, ⟨[5, 7], 1⟩], [[], []], zeroStats 3⟩ :
            AdjustState).chans.getD i [] ++
          [ChanEvent.out ((⟨[⟨[7], 2⟩, ⟨[5, 7], 1⟩], [[], []], zeroStats 3⟩ :
            AdjustState).opens.getD i dRec)]) ∧
      (∀ i, sameOf ⟨[⟨[7], 2⟩, ⟨[5, 7], 1⟩], [[], []], zeroStats 3⟩ ⟨[9, 6, 7], 1⟩ ≤ i →
          i < (⟨[⟨[7], 2⟩, ⟨[5, 7], 1⟩], [[], []], zeroStats 3⟩ :
            AdjustState).opens.length →
        ((⟨[⟨[7], 2⟩, ⟨[5, 7], 1⟩], [[], []], zeroStats 3⟩ :
            AdjustState).stats.getD i zeroStat).statAdd
            (((⟨[⟨[7], 2⟩, ⟨[5, 7], 1⟩], [[], []], zeroStats 3⟩ :
              AdjustState).opens.getD i dRec).count) =
          some (st'.stats.getD i zeroStat)) ∧
      (∀ i, i < sameOf ⟨[⟨[7], 2⟩, ⟨[5, 7], 1⟩], [[], []], zeroStats 3⟩ ⟨[9, 6, 7], 1⟩ ∨
          (⟨[⟨[7], 2⟩, ⟨[5, 7], 1⟩], [[], []], zeroStats 3⟩ :
            AdjustState).opens.length ≤ i →
        st'.chans.getD i [] = (⟨[⟨[7], 2⟩, ⟨[5, 7], 1⟩], [[], []], zeroStats 3⟩ :
          AdjustState).chans.getD i []) ∧
      (∀ i, i < 3 - 1 →
          i < sameOf ⟨[⟨[7], 2⟩, ⟨[5, 7], 1⟩], [[], []], zeroStats 3⟩ ⟨[9, 6, 7], 1⟩ ∨
          (⟨[⟨[7], 2⟩, ⟨[5, 7], 1⟩], [[], []], zeroStats 3⟩ :
            AdjustState).opens.length ≤ i →
        st'.stats.getD i zeroStat = (⟨[⟨[7], 2⟩, ⟨[5, 7], 1⟩], [[], []], zeroStats 3⟩ :
          AdjustState).stats.getD i zeroStat)) :=
  ⟨by decide, by decide, by decide, by unfold DriverInv; decide,
    by unfold CntInv; decide,
    c1_adjust_step 3 ⟨[⟨[7], 2⟩, ⟨[5, 7], 1⟩], [[], []], zeroStats 3⟩ ⟨[9, 6, 7], 1⟩
      (by decide) (by decide) (by decide) (by unfold DriverInv; decide)
      (by unfold CntInv; decide)⟩

/-- C2: for every maximum-order record processed by the driver (order ≥ 2),
walking backward from the divergence point `d = N - 1 - same` toward the
front of the record: a count-1 open record is created at each intervening
order (positions strictly between the stop point and `d`, none of which
hold the sentence-start marker); if the marker is met strictly before the
first word, the record opened at the marker position carries the raw count
verbatim and the top-order collector slot is untouched (no `AddFull`); if
the walk reaches the first word, the raw count goes to `AddFull` and no
marker record is opened (the new open stack is exactly `same + d` deep). -/
theorem c2_bos_walk (N : Nat) (st : AdjustState) (f : NGramRec)
    (hN : 2 ≤ N) (hws : f.words.length = N) (hc : 1 ≤ f.count)
    (hinv : DriverInv N st) (hcnt : CntInv st) :
    ∃ st', runStep st f = some st' ∧
      walkStop f.words (N - 1 - sameOf st f) ≤ N - 1 - sameOf st f ∧
      (∀ q, walkStop f.words (N - 1 - sameOf st f) < q →
          q ≤ N - 1 - sameOf st f →
        f.words.getD q 0 ≠ kBOS ∧
        st'.opens.getD (N - 1 - q) dRec = ⟨f.words.drop q, 1⟩) ∧
      (1 ≤ walkStop f.words (N - 1 - sameOf st f) →
        f.words.getD (walkStop f.words (N - 1 - sameOf st f)) 0 = kBOS ∧
        st'.opens.getD (N - 1 - walkStop f.words (N - 1 - sameOf st f)) dRec =
          ⟨f.words.drop (walkStop f.words (N - 1 - sameOf st f)), f.count⟩ ∧
        st'.stats.getD (N - 1) zeroStat = st.stats.getD (N - 1) zeroStat) ∧
      (walkStop f.words (N - 1 - sameOf st f) = 0 →
        (st.stats.getD (N - 1) zeroStat).statAdd f.count =
          some (st'.stats.getD (N - 1) zeroStat) ∧
        st'.opens.length = sameOf st f + (N - 1 - sameOf st f)) := by
  obtain ⟨hm_le, hreq⟩ := runStep_same_eq N st f hN hws hinv
  obtain ⟨st', hsome, _, _, _, _, _, _, _, _,
      b1, b2, b3, b4, b5, b6, b7, b8⟩ :=
    runStepWith_main N st f (sameOf st f) hN hws hc hinv hm_le
      (fun i hi _ => hcnt i hi)
  refine ⟨st', by rw [hreq]; exact hsome, b1,
    fun q hq1 hq2 => ⟨b3 q hq1 hq2, b4 q hq1 hq2⟩,
    fun hm => ⟨b2 hm, b5 hm, b7 hm⟩,
    fun hz => ⟨b6 hz, ?_⟩⟩
  rw [b8, hz]
  simp

def c2wSt : AdjustState := ⟨[⟨[7], 2⟩, ⟨[5, 7], 1⟩], [[], []], zeroStats 3⟩

def c2wF : NGramRec := ⟨[9, 1, 7], 4⟩

theorem c2_bos_walk_witness :
    2 ≤ 3 ∧ c2wF.words.length = 3 ∧ 1 ≤ c2wF.count ∧
    DriverInv 3 c2wSt ∧ CntInv c2wSt ∧
    (∃ st', runStep c2wSt c2wF = some st' ∧
      walkStop c2wF.words (3 - 1 - sameOf c2wSt c2wF) ≤ 3 - 1 - sameOf c2wSt c2wF ∧
      (∀ q, walkStop c2wF.words (3 - 1 - sameOf c2wSt c2wF) < q →
          q ≤ 3 - 1 - sameOf c2wSt c2wF →
        c2wF.words.getD q 0 ≠ kBOS ∧
        st'.opens.getD (3 - 1 - q) dRec = ⟨c2wF.words.drop q, 1⟩) ∧
      (1 ≤ walkStop c2wF.words (3 - 1 - sameOf c2wSt c2wF) →
        c2wF.words.getD (walkStop c2wF.words (3 - 1 - sameOf c2wSt c2wF)) 0 = kBOS ∧
        st'.opens.getD (3 - 1 - walkStop c2wF.words (3 - 1 - sameOf c2wSt c2wF)) dRec =
          ⟨c2wF.words.drop (walkStop c2wF.words (3 - 1 - sameOf c2wSt c2wF)),
            c2wF.count⟩ ∧
        st'.stats.getD (3 - 1) zeroStat = c2wSt.stats.getD (3 - 1) zeroStat) ∧
      (walkStop c2wF.words (3 - 1 - sameOf c2wSt c2wF) = 0 →
        (c2wSt.stats.getD (3 - 1) zeroStat).statAdd c2wF.count =
          some (st'.stats.getD (3 - 1) zeroStat) ∧
        st'.opens.length = sameOf c2wSt c2wF + (3 - 1 - sameOf c2wSt c2wF))) :=
  ⟨by decide, by decide, by decide, by unfold DriverInv c2wSt; decide,
    by unfold CntInv c2wSt; decide,
    c2_bos_walk 3 c2wSt c2wF (by decide) (by decide) (by decide)
      (by unfold DriverInv c2wSt; decide) (by unfold CntInv c2wSt; decide)⟩

theorem init_inv (N : Nat) (f0 : NGramRec) (hN : 2 ≤ N) :
    DriverInv N (initState N f0) := by
  refine ⟨?_, ?_, ?_, ?_, ?_⟩
  · show 0 < ([⟨[f0.words.getLastD 0], 0⟩] : List NGramRec).length
    simp
  · show ([⟨[f0.words.getLastD 0], 0⟩] : List NGramRec).length ≤ N - 1
    simp
    omega
  · intro i hi
    have hi0 : i = 0 := by
      have h := hi
      simp [initState] at h
      exact h
    subst hi0
    rfl
  · show (List.replicate (N - 1) ([] : List ChanEvent)).length = N - 1
    simp
  · show (zeroStats N).length = N
    simp [zeroStats]

theorem sameOf_init (N : Nat) (f0 : NGramRec) (hlen : f0.words.length = N)
    (hN : 2 ≤ N) : sameOf (initState N f0) f0 = 1 := by
  obtain ⟨w, ws, hrev⟩ : ∃ w ws, f0.words.reverse = w :: ws := by
    cases h : f0.words.reverse with
    | nil =>
      exfalso
      have h2 := congrArg List.length h
      simp [hlen] at h2
      omega
    | cons w ws => exact ⟨w, ws, rfl⟩
  have hw : f0.words.getLastD 0 = w := by
    rw [List.getLastD_eq_getLast?, ← List.head?_reverse, hrev]
    rfl
  show matchRev f0.words.reverse [f0.words.getLastD 0].reverse = 1
  rw [hw, hrev]
  show matchRev (w :: ws) [w] = 1
  simp [matchRev]

theorem firstStep_inv (N : Nat) (f0 : NGramRec) (hN : 2 ≤ N)
    (hlen : f0.words.length = N) (hc : 1 ≤ f0.count) :
    ∃ st1, runStep (initState N f0) f0 = some st1 ∧ DriverInv N st1 ∧ CntInv st1 := by
  have hinv := init_inv N f0 hN
  obtain ⟨hm_le, hreq⟩ := runStep_same_eq N (initState N f0) f0 hN hlen hinv
  have hs1 := sameOf_init N f0 hlen hN
  obtain ⟨st1, hsome, hinv1, hcnt1, -⟩ :=
    runStepWith_main N (initState N f0) f0 (sameOf (initState N f0) f0) hN hlen hc
      hinv hm_le
      (fun i hi hne => by
        exfalso
        have hL : (initState N f0).opens.length = 1 := rfl
        rw [hL] at hi
        rw [hs1] at hne
        omega)
  exact ⟨st1, by rw [hreq]; exact hsome, hinv1, hcnt1⟩

theorem runFold_inv (N : Nat) (hN : 2 ≤ N) :
    ∀ (fs : List NGramRec) (st : AdjustState),
      (∀ f ∈ fs, f.words.length = N ∧ 1 ≤ f.count) →
      DriverInv N st → CntInv st →
      ∃ out, fs.foldlM runStep st = some out ∧ DriverInv N out ∧ CntInv out := by
  intro fs
  induction fs with
  | nil =>
    intro st _ h1 h2
    exact ⟨st, rfl, h1, h2⟩
  | cons f fs ih =>
    intro st hwf h1 h2
    obtain ⟨hm_le, hreq⟩ :=
      runStep_same_eq N st f hN (hwf f (by simp)).1 h1
    obtain ⟨st1, hsome, hinv1, hcnt1, -⟩ :=
      runStepWith_main N st f (sameOf st f) hN (hwf f (by simp)).1
        (hwf f (by simp)).2 h1 hm_le (fun i hi _ => h2 i hi)
    have hstep : runStep st f = some st1 := by rw [hreq]; exact hsome
    obtain ⟨out, hout, hinv2, hcnt2⟩ :=
      ih st1 (fun g hg => hwf g (by simp [hg])) hinv1 hcnt1
    refine ⟨out, ?_, hinv2, hcnt2⟩
    rw [List.foldlM_cons, hstep]
    exact hout

/-- C10: in the general (order ≥ 2) case, after the driver has processed any
prefix of the maximum-order records, at least one lower-order record is open
(the cursor `lower_valid` is at or above the unigram slot, so the assertion
at line 179 never fires) and the open stack never exceeds the `N - 1`
lower-order slots, so the final flush loop's bounds are valid. -/
theorem c10_lower_valid (N : Nat) (f0 : NGramRec) (rest : List NGramRec)
    (hN : 2 ≤ N)
    (hwf : ∀ f ∈ f0 :: rest, f.words.length = N ∧ 1 ≤ f.count) :
    ∀ k, k ≤ (f0 :: rest).length →
      ∃ stk, ((f0 :: rest).take k).foldlM runStep (initState N f0) = some stk ∧
        0 < stk.opens.length ∧ stk.opens.length ≤ N - 1 := by
  intro k _
  cases k with
  | zero =>
    refine ⟨initState N f0, rfl, ?_, ?_⟩
    · show 0 < ([⟨[f0.words.getLastD 0], 0⟩] : List NGramRec).length
      simp
    · show ([⟨[f0.words.getLastD 0], 0⟩] : List NGramRec).length ≤ N - 1
      simp
      omega
  | succ k =>
    obtain ⟨st1, hstep, hinv1, hcnt1⟩ :=
      firstStep_inv N f0 hN (hwf f0 (by simp)).1 (hwf f0 (by simp)).2
    obtain ⟨out, hout, hinv2, -⟩ :=
      runFold_inv N hN (rest.take k) st1
        (fun g hg => hwf g (List.mem_cons_of_mem f0 (List.mem_of_mem_take hg)))
        hinv1 hcnt1
    obtain ⟨hp1, hp2, -, -, -⟩ := hinv2
    refine ⟨out, ?_, hp1, hp2⟩
    rw [List.take_succ_cons, List.foldlM_cons, hstep]
    exact hout

theorem c10_lower_valid_witness :
    2 ≤ 2 ∧
    (∀ f ∈ [(⟨[3, 7], 1⟩ : NGramRec)], f.words.length = 2 ∧ 1 ≤ f.count) ∧
    (∀ k, k ≤ ([(⟨[3, 7], 1⟩ : NGramRec)]).length →
      ∃ stk, (([(⟨[3, 7], 1⟩ : NGramRec)]).take k).foldlM runStep
          (initState 2 ⟨[3, 7], 1⟩) = some stk ∧
        0 < stk.opens.length ∧ stk.opens.length ≤ 2 - 1) :=
  ⟨by decide, by decide,
    c10_lower_valid 2 ⟨[3, 7], 1⟩ [] (by decide) (by decide)⟩

/-- C8: an empty maximum-order stream at order ≥ 2 completes the run: the
driver returns successfully, every order's distinct-record total is zero,
the discount coefficients are those computed from the all-zero histograms,
and no record is emitted on any output channel. -/
theorem c8_empty_run (N : Nat) (hN : 2 ≤ N) :
    ∃ out, adjustRun N [] = some out ∧
      out.counts = List.replicate N 0 ∧
      out.discounts = completeDiscounts (zeroStats N) ∧
      ∀ ch ∈ out.chans, ch = [] := by
  refine ⟨⟨completeCounts (zeroStats N), completeDiscounts (zeroStats N),
      List.replicate (N - 1) []⟩, ?_, ?_, rfl, ?_⟩
  · unfold adjustRun
    rw [if_neg (by omega)]
  · show completeCounts (zeroStats N) = List.replicate N 0
    unfold completeCounts zeroStats
    rw [List.map_replicate]
    rfl
  · intro ch hch
    exact List.eq_of_mem_replicate hch

theorem c8_empty_run_witness :
    2 ≤ 2 ∧
    (∃ out, adjustRun 2 [] = some out ∧
      out.counts = List.replicate 2 0 ∧
      out.discounts = completeDiscounts (zeroStats 2) ∧
      ∀ ch ∈ out.chans, ch = []) :=
  ⟨by decide, c8_empty_run 2 (by decide)⟩

/-- C9 (refuted — missing poison at lines 137–141): the claim requires the
end-of-data poison to be issued on each lower-order channel exactly once in
every run, including the empty-input path.  But on an empty maximum-order
input of order 2 the code returns at line 140 without poisoning anything:
the run succeeds, there is one lower-order channel, and its event trace
contains no poison at all. -/
theorem c9_no_poison_on_empty :
    ∃ out, adjustRun 2 [] = some out ∧ out.chans.length = 1 ∧
      ∀ ch ∈ out.chans, ChanEvent.poison ∉ ch := by
  refine ⟨⟨completeCounts (zeroStats 2), completeDiscounts (zeroStats 2),
      List.replicate 1 []⟩, rfl, rfl, ?_⟩
  intro ch hch
  rw [List.eq_of_mem_replicate hch]
  simp
